import Mathlib

/-!
# LCD2004 (HD44780 behind a PCF8574 expander): embedding of `lcd2004.c`

The driver is modelled by explicit state passing.  The only observable state is
the sequence of bytes handed to the I2C transport (`log`, oldest first); the
transport itself (`i2c_smbus_write_byte`) is a parameter of type `Bus`.
Delays (`mdelay`, `udelay`) and kernel logging (`dev_info`, `dev_err`) have no
effect on that state and are left out.  `uint8_t` and `char` values are
naturals; conversions to `uint8_t` are written `% 256`.

Locals the source reads without having set them are parameters of the
function that declares them: the value of `ret` on entry of
`hd44780_dev_puts`, and the memory at `cmd` on entry of `lcd2004_write_file`.
-/

namespace LCD2004

/-- Return code of `i2c_smbus_write_byte(dev->client, data)`, as a function of
the bytes written before and of the byte being written: zero or positive on
success, a negative errno on failure. -/
abbrev Bus := List Nat → Nat → Int

def HD44780_LINE_1_ADDR : Nat := 0x0
def HD44780_LINE_2_ADDR : Nat := 0x40
def HD44780_LINE_3_ADDR : Nat := 0x14
def HD44780_LINE_4_ADDR : Nat := 0x54

def HD44780_CMD_CLEAR : Nat := 0x01
def HD44780_CMD_ENTRY_MODE : Nat := 0x04
def HD44780_CMD_DISPLAY_CTRL : Nat := 0x08
def HD44780_CMD_FUNC_SET : Nat := 0x20
def HD44780_CMD_DDRAM_ADDR : Nat := 0x80

def BV (x : Nat) : Nat := 1 <<< x

def HD44780_ARG_EM_INCREMENT : Nat := BV 1
def HD44780_ARG_DC_DISPLAY_ON : Nat := BV 2
def HD44780_ARG_DC_CURSOR_ON : Nat := BV 1
def HD44780_ARG_DC_CURSOR_BLINK : Nat := 1
def HD44780_ARG_FS_8_BIT : Nat := BV 4
def HD44780_ARG_FS_2_LINES : Nat := BV 3
def HD44780_ARG_FS_FONT_5X10 : Nat := BV 2
def HD44780_FONT_5X8 : Nat := 0
def HD44780_FONT_5X10 : Nat := 1

def LCD_LINES : Nat := 4
def LCD_FONT : Nat := HD44780_FONT_5X8

def EFAULT : Int := 14
def EINVAL : Int := 22
def ERANGE : Int := 34

def line_addr : List Nat :=
  [HD44780_LINE_1_ADDR, HD44780_LINE_2_ADDR, HD44780_LINE_3_ADDR, HD44780_LINE_4_ADDR]

/-- One transport write: the byte is appended to the log and the transport's
return code is handed back. -/
def pcf8574_write (bus : Bus) (log : List Nat) (data : Nat) : Int × List Nat :=
  (bus log data, log ++ [data])

/-- The local `data` of `hd44780_write_nibble`. -/
def nibble_data (b : Nat) (rs bl : Bool) : Nat :=
  ((((b >>> 3) &&& 1) <<< 7) |||
   (((b >>> 2) &&& 1) <<< 6) |||
   (((b >>> 1) &&& 1) <<< 5) |||
   ((b &&& 1) <<< 4) |||
   (if rs then 1 else 0) |||
   (if bl then 1 <<< 3 else 0)) % 256

def hd44780_write_nibble (bus : Bus) (log : List Nat) (b : Nat) (rs bl : Bool) :
    Int × List Nat :=
  let data := nibble_data b rs bl
  let r := pcf8574_write bus log ((data ||| (1 <<< 2)) % 256)
  if r.1 < 0 then r
  else pcf8574_write bus r.2 data

def hd44780_write_byte (bus : Bus) (log : List Nat) (b : Nat) (rs bl : Bool) :
    Int × List Nat :=
  let r := hd44780_write_nibble bus log (b >>> 4) rs bl
  if r.1 < 0 then r
  else hd44780_write_nibble bus r.2 (b >>> 0) rs bl

/-- The function is `void`: only the log is handed back. -/
def hd44780_dev_control (bus : Bus) (log : List Nat) (on_ cursor cursor_blink : Bool) :
    List Nat :=
  (hd44780_write_byte bus log
    ((HD44780_CMD_DISPLAY_CTRL |||
      (if on_ then HD44780_ARG_DC_DISPLAY_ON else 0) |||
      (if cursor then HD44780_ARG_DC_CURSOR_ON else 0) |||
      (if cursor_blink then HD44780_ARG_DC_CURSOR_BLINK else 0)) % 256)
    false true).2

def hd44780_dev_clear (bus : Bus) (log : List Nat) : List Nat :=
  (hd44780_write_byte bus log HD44780_CMD_CLEAR false true).2

/-- The table has four entries and the source indexes it with an unchecked
`row`; an index past the table has no defined value, so the result is `none`
there. -/
def hd44780_dev_gotoxy (bus : Bus) (log : List Nat) (col row : Nat) : Option (List Nat) :=
  match line_addr.get? row with
  | none => none
  | some a =>
    some (hd44780_write_byte bus log ((HD44780_CMD_DDRAM_ADDR + a + col) % 256) false true).2

/-- The three-fold loop of `hd44780_dev_init`; `n` is the number of rounds left. -/
def init_loop (bus : Bus) : Nat → List Nat → List Nat
  | 0, log => log
  | n + 1, log =>
    init_loop bus n
      (hd44780_write_nibble bus log ((HD44780_CMD_FUNC_SET ||| HD44780_ARG_FS_8_BIT) >>> 4)
        false true).2

def hd44780_dev_init (bus : Bus) (log : List Nat) : List Nat :=
  let log1 := init_loop bus 3 log
  let log2 := (hd44780_write_nibble bus log1 (HD44780_CMD_FUNC_SET >>> 4) false true).2
  let log3 := (hd44780_write_byte bus log2
    ((HD44780_CMD_FUNC_SET |||
      (if LCD_LINES > 1 then HD44780_ARG_FS_2_LINES else 0) |||
      (if LCD_FONT = HD44780_FONT_5X10 then HD44780_ARG_FS_FONT_5X10 else 0)) % 256)
    false true).2
  let log4 := hd44780_dev_control bus log3 false false false
  let log5 := hd44780_dev_clear bus log4
  let log6 := (hd44780_write_byte bus log5
    (HD44780_CMD_ENTRY_MODE ||| HD44780_ARG_EM_INCREMENT) false false).2
  hd44780_dev_control bus log6 true true true

def hd44780_dev_putc (bus : Bus) (log : List Nat) (c : Nat) : Int × List Nat :=
  hd44780_write_byte bus log (c % 256) true true

/-- The string is the list of bytes found at `s`; the loop stops at the first
zero byte, and the end of the list stands for the terminator of a string given
without one.  `ret` is the local of that name: it is not set before the loop,
so its value on entry is whatever the caller's frame holds. -/
def hd44780_dev_puts (bus : Bus) (ret : Int) (log : List Nat) : List Nat → Int × List Nat
  | [] => (ret, log)
  | c :: s =>
    if c = 0 then (ret, log)
    else
      let r := hd44780_dev_putc bus log c
      if r.1 < 0 then r
      else hd44780_dev_puts bus r.1 r.2 s

/-! ### Kernel library routines used by the write handler

`strstr` and `kstrtoul` belong to the kernel, not to the driver; they are
written out after `lib/string.c` and `lib/kstrtox.c`.  A C string is the list
of bytes found at its address: it ends at the first zero byte, and the end of
the list stands for a terminator when the list has none. -/

/-- The characters of the C string at `s`, terminator excluded. -/
def cstr (s : List Nat) : List Nat := s.takeWhile (fun c => c != 0)

/-- Byte `i` of the memory at `s`. -/
def byte_at (s : List Nat) (i : Nat) : Nat := s.getD i 0

/-- Store of one byte in position 0 of the memory at `m`. -/
def store0 (m : List Nat) (v : Nat) : List Nat := v :: m.drop 1

/-- First occurrence of `s2` in the characters `s1`: the tail of `s1` that
starts with it, or `none` for the null pointer. -/
def strstr (s1 s2 : List Nat) : Option (List Nat) :=
  match s1 with
  | [] => if s2.isPrefixOf [] then some [] else none
  | c :: t => if s2.isPrefixOf (c :: t) then some (c :: t) else strstr t s2

def _tolower (c : Nat) : Nat := c ||| 0x20

def isxdigit (c : Nat) : Bool :=
  (48 ≤ c && c ≤ 57) || (65 ≤ c && c ≤ 70) || (97 ≤ c && c ≤ 102)

deriving instance DecidableEq for Except

def ULLONG_MAX : Nat := 2 ^ 64 - 1

/-- Radix detection: the base to use and the string with a hexadecimal
`0x` stripped. -/
def _parse_integer_fixup_radix (s : List Nat) (base : Nat) : List Nat × Nat :=
  let base1 :=
    if base = 0 then
      if byte_at s 0 = 48 then
        if _tolower (byte_at s 1) = 120 && isxdigit (byte_at s 2) then 16 else 8
      else 10
    else base
  if base1 = 16 && byte_at s 0 = 48 && _tolower (byte_at s 1) = 120 then (s.drop 2, base1)
  else (s, base1)

/-- The digit loop of `_parse_integer`: accumulated value (an
`unsigned long long`), number of characters consumed, overflow flag. -/
def _parse_integer (base : Nat) (res rv : Nat) (ovf : Bool) : List Nat → Nat × Nat × Bool
  | [] => (res, rv, ovf)
  | c :: s =>
    let lc := c ||| 0x20
    if 48 ≤ c ∧ c ≤ 57 then
      let val := c - 48
      if val ≥ base then (res, rv, ovf)
      else
        let ovf1 := ovf || (decide (res / 2 ^ 60 ≠ 0) && decide (res > (ULLONG_MAX - val) / base))
        _parse_integer base ((res * base + val) % 2 ^ 64) (rv + 1) ovf1 s
    else if 97 ≤ lc ∧ lc ≤ 102 then
      let val := lc - 97 + 10
      if val ≥ base then (res, rv, ovf)
      else
        let ovf1 := ovf || (decide (res / 2 ^ 60 ≠ 0) && decide (res > (ULLONG_MAX - val) / base))
        _parse_integer base ((res * base + val) % 2 ^ 64) (rv + 1) ovf1 s
    else (res, rv, ovf)

def _kstrtoull (s : List Nat) (base : Nat) : Except Int Nat :=
  let f := _parse_integer_fixup_radix s base
  let p := _parse_integer f.2 0 0 false f.1
  if p.2.2 then Except.error (-ERANGE)
  else if p.2.1 = 0 then Except.error (-EINVAL)
  else
    let s1 := f.1.drop p.2.1
    let s2 := if byte_at s1 0 = 10 then s1.drop 1 else s1
    if byte_at s2 0 ≠ 0 then Except.error (-EINVAL)
    else Except.ok p.1

def kstrtoull (s : List Nat) (base : Nat) : Except Int Nat :=
  _kstrtoull (if byte_at s 0 = 43 then s.drop 1 else s) base

/-- `kstrtoul`; `ulong_max` is the platform's `ULONG_MAX` (`2^32 - 1` or
`2^64 - 1`).  `Except.ok v` stands for return code 0 with `v` stored in the
result, `Except.error e` for return code `e` with the result left untouched. -/
def kstrtoul (ulong_max : Nat) (s : List Nat) (base : Nat) : Except Int Nat :=
  match kstrtoull s base with
  | Except.error e => Except.error e
  | Except.ok tmp => if tmp > ulong_max then Except.error (-ERANGE) else Except.ok tmp

/-- The bytes of the string literal "Invalid command". -/
def invalid_command : List Nat :=
  [73, 110, 118, 97, 108, 105, 100, 32, 99, 111, 109, 109, 97, 110, 100, 0]

/-- The bytes of the string literal "___". -/
def marker : List Nat := [95, 95, 95]

/-- The write handler.

* `userbuf` holds the bytes readable at the user pointer, `count` is the
  length of the request; `copy_from_user` fails when fewer than `count`
  bytes are readable.
* `buf` has 16 bytes: a `count` of 0 (store to `buf[-1]`) or above 16 has no
  defined behaviour, the result is `none`.
* `cmd` is the content, on entry, of the memory at the local `char cmd[3]`
  (the three bytes of the array and what follows them): the source never
  sets it, stores to `cmd[0]` only, and hands the address to `kstrtoul`.
* `puts_ret` is the value on entry of the local `ret` of `hd44780_dev_puts`.

The result is the return value paired with the log. -/
def lcd2004_write_file (bus : Bus) (ulong_max : Nat) (cmd : List Nat) (puts_ret : Int)
    (log : List Nat) (userbuf : List Nat) (count : Nat) : Option (Int × List Nat) :=
  if count = 0 ∨ 16 < count then none
  else if userbuf.length < count then some (-EFAULT, log)
  else
    let buf := (userbuf.take count).set (count - 1) 0
    if (strstr (cstr buf) marker).isSome then
      let cmd := store0 cmd (byte_at buf 2)
      let cmd := store0 cmd (byte_at buf 3)
      match kstrtoul ulong_max cmd 0 with
      | Except.error _ => some (-EINVAL, log)
      | Except.ok val =>
        if val = 0 then some ((count : Int), hd44780_dev_clear bus log)
        else if val > 0 ∧ val ≤ 4 then
          match hd44780_dev_gotoxy bus log 0 ((val - 1) % 256) with
          | none => none
          | some log1 => some ((count : Int), log1)
        else some ((count : Int), (hd44780_dev_puts bus puts_ret log invalid_command).2)
    else some ((count : Int), (hd44780_dev_puts bus puts_ret log buf).2)

/-! ### Vocabulary of the properties -/

/-- A transport on which every write succeeds. -/
def bus_ok (bus : Bus) : Prop := ∀ log data, 0 ≤ bus log data

/-- The transport that acknowledges every write with code 0. -/
def ack_bus : Bus := fun _ _ => 0

/-- Expander byte for a nibble with the strobe low, in closed form:
`((b & 0x0F) << 4) | (bl ? 0x08 : 0) | (rs ? 0x01 : 0)`. -/
def expander_byte (b : Nat) (rs bl : Bool) : Nat :=
  ((b &&& 0x0F) <<< 4) ||| (if bl then 0x08 else 0) ||| (if rs then 0x01 else 0)

/-- Writes of `hd44780_write_nibble` when every write succeeds. -/
def nibble_writes (b : Nat) (rs bl : Bool) : List Nat :=
  (hd44780_write_nibble ack_bus [] b rs bl).2

/-- Writes of `hd44780_write_byte` when every write succeeds. -/
def byte_writes (b : Nat) (rs bl : Bool) : List Nat :=
  (hd44780_write_byte ack_bus [] b rs bl).2

/-- Fail-stop issue of a sequence of bytes: the bytes are written in order, the
first negative return code ends the sequence and is returned; when none fails
the code of the last write is returned (`ret` for the empty sequence). -/
def fail_stop (bus : Bus) (ret : Int) (log : List Nat) : List Nat → Int × List Nat
  | [] => (ret, log)
  | w :: ws =>
    if bus log w < 0 then (bus log w, log ++ [w])
    else fail_stop bus (bus log w) (log ++ [w]) ws

/-- The log after `hd44780_dev_putc` has been run on each character of `s` in
turn, return codes ignored. -/
def putc_each (bus : Bus) (log : List Nat) (s : List Nat) : List Nat :=
  s.foldl (fun l c => (hd44780_dev_putc bus l c).2) log

/-- The writes of the data bytes of the characters `s`, one after the other,
when every write succeeds. -/
def string_writes (s : List Nat) : List Nat :=
  (s.map (fun c => byte_writes (c % 256) true true)).flatten

/-- A transport that refuses write number `n` (counted from 0) with code `-5`. -/
def nth_write_fails (n : Nat) : Bus := fun log _ => if log.length = n then -5 else 0

/-- The kernel buffer `buf` after `copy_from_user` and the store of the
terminator at `buf[count - 1]`. -/
def request_buffer (userbuf : List Nat) (count : Nat) : List Nat :=
  (userbuf.take count).set (count - 1) 0

/-- The nine steps of `hd44780_dev_init`, each with the writes it issues when
every write succeeds: three nibbles `0x3`, one nibble `0x2`, then the bytes
`0x28`, `0x08`, `0x01`, `0x06` (backlight bit clear) and `0x0F`. -/
def init_steps : List (List Nat) :=
  [nibble_writes 0x3 false true, nibble_writes 0x3 false true, nibble_writes 0x3 false true,
   nibble_writes 0x2 false true, byte_writes 0x28 false true, byte_writes 0x08 false true,
   byte_writes 0x01 false true, byte_writes 0x06 false false, byte_writes 0x0F false true]

/-- Steps run one after the other, each fail-stop on its own, return codes
dropped. -/
def run_steps (bus : Bus) (log : List Nat) (steps : List (List Nat)) : List Nat :=
  steps.foldl (fun l ws => (fail_stop bus 0 l ws).2) log

/-- Strobe framing of a sequence of expander bytes: the sequence is made of
consecutive pairs `(v | 0x04, v)` in which `v` has bit 2 (strobe) clear, and
bit 1 (read/write) is clear in both bytes of the pair. -/
def framed : List Nat → Bool
  | [] => true
  | [_] => false
  | a :: v :: rest =>
    (a == (v ||| 0x04)) && !(v.testBit 2) && !(v.testBit 1) && !(a.testBit 1) && framed rest

/-- The bytes written between the log `log` and the later log `log1` are
strobe framed. -/
def writes_framed (log log1 : List Nat) : Bool :=
  log.isPrefixOf log1 && framed (log1.drop log.length)

/-- The command byte read back from the four writes of a byte: the data
nibble of the second write is the high nibble, that of the fourth write the
low nibble. -/
def command_of_writes (ws : List Nat) : Nat :=
  ((ws.getD 1 0) >>> 4) * 16 + ((ws.getD 3 0) >>> 4)

/-! ## Theorems -/

/-! ### The nibble encoder -/

theorem and_15_eq_mod (b : Nat) : b &&& 0x0F = b % 16 :=
  Nat.and_pow_two_sub_one_eq_mod b 4

theorem nibble_data_mod (b : Nat) (rs bl : Bool) :
    nibble_data b rs bl = nibble_data (b % 16) rs bl := by
  have h3 : (b >>> 3) &&& 1 = ((b % 16) >>> 3) &&& 1 := by
    simp only [Nat.shiftRight_eq_div_pow, Nat.and_one_is_mod]; omega
  have h2 : (b >>> 2) &&& 1 = ((b % 16) >>> 2) &&& 1 := by
    simp only [Nat.shiftRight_eq_div_pow, Nat.and_one_is_mod]; omega
  have h1 : (b >>> 1) &&& 1 = ((b % 16) >>> 1) &&& 1 := by
    simp only [Nat.shiftRight_eq_div_pow, Nat.and_one_is_mod]; omega
  have h0 : b &&& 1 = (b % 16) &&& 1 := by
    simp only [Nat.and_one_is_mod]; omega
  unfold nibble_data
  rw [h3, h2, h1, h0]

theorem nibble_data_small (rs bl : Bool) :
    ∀ m, m < 16 → nibble_data m rs bl = expander_byte m rs bl ∧
      (nibble_data m rs bl ||| (1 <<< 2)) % 256 = expander_byte m rs bl ||| 0x04 := by
  cases rs <;> cases bl <;> decide

theorem expander_byte_mod (b : Nat) (rs bl : Bool) :
    expander_byte b rs bl = expander_byte (b % 16) rs bl := by
  unfold expander_byte
  rw [and_15_eq_mod, and_15_eq_mod, Nat.mod_mod]

theorem nibble_data_eq (b : Nat) (rs bl : Bool) :
    nibble_data b rs bl = expander_byte b rs bl := by
  rw [nibble_data_mod, expander_byte_mod]
  exact (nibble_data_small rs bl (b % 16) (Nat.mod_lt _ (by decide))).1

theorem nibble_strobe_eq (b : Nat) (rs bl : Bool) :
    (nibble_data b rs bl ||| (1 <<< 2)) % 256 = expander_byte b rs bl ||| 0x04 := by
  rw [nibble_data_mod, expander_byte_mod]
  exact (nibble_data_small rs bl (b % 16) (Nat.mod_lt _ (by decide))).2

/-- The encoder in terms of the closed form of its byte. -/
theorem write_nibble_eq (bus : Bus) (log : List Nat) (b : Nat) (rs bl : Bool) :
    hd44780_write_nibble bus log b rs bl =
      if bus log (expander_byte b rs bl ||| 0x04) < 0 then
        (bus log (expander_byte b rs bl ||| 0x04), log ++ [expander_byte b rs bl ||| 0x04])
      else
        (bus (log ++ [expander_byte b rs bl ||| 0x04]) (expander_byte b rs bl),
          log ++ [expander_byte b rs bl ||| 0x04, expander_byte b rs bl]) := by
  simp only [hd44780_write_nibble, pcf8574_write, nibble_strobe_eq]
  simp only [nibble_data_eq]
  split <;> simp

theorem expander_byte_layout_small (rs bl : Bool) :
    ∀ m, m < 16 →
      (∀ i, i < 4 → (expander_byte m rs bl).testBit (4 + i) = m.testBit i) ∧
      (expander_byte m rs bl).testBit 3 = bl ∧
      (expander_byte m rs bl).testBit 2 = false ∧
      (expander_byte m rs bl).testBit 1 = false ∧
      (expander_byte m rs bl).testBit 0 = rs ∧
      (expander_byte m rs bl ||| 0x04).testBit 1 = false ∧
      (expander_byte m rs bl ||| 0x04) ^^^ expander_byte m rs bl = 0x04 ∧
      expander_byte m rs bl ||| 0x04 < 256 := by
  cases rs <;> cases bl <;> decide

theorem testBit_mod_16 (b i : Nat) (hi : i < 4) : (b % 16).testBit i = b.testBit i := by
  have h := Nat.testBit_mod_two_pow b 4 i
  simpa [hi] using h

/-- C1. When the strobe-high write succeeds, `hd44780_write_nibble` issues
exactly two bus writes, `v | 0x04` then `v`, with
`v = ((b & 0x0F) << 4) | (bl ? 0x08 : 0) | (rs ? 0x01 : 0)`, and returns the
result of the second write.  Data bit `i` of the nibble sits at bit `4 + i`,
bit 3 is the backlight, bit 0 the register select, bit 1 is 0 in both writes,
and the two writes differ in bit 2 only (set in the first, clear in the
second). -/
theorem write_nibble_two_writes (bus : Bus) (log : List Nat) (b : Nat) (rs bl : Bool)
    (v : Nat) (hv : v = ((b &&& 0x0F) <<< 4) ||| (if bl then 0x08 else 0) ||| (if rs then 0x01 else 0))
    (h1 : 0 ≤ bus log (v ||| 0x04)) (_h2 : 0 ≤ bus (log ++ [v ||| 0x04]) v) :
    hd44780_write_nibble bus log b rs bl = (bus (log ++ [v ||| 0x04]) v, log ++ [v ||| 0x04, v]) ∧
    (∀ i, i < 4 → v.testBit (4 + i) = b.testBit i) ∧
    v.testBit 3 = bl ∧ v.testBit 2 = false ∧ v.testBit 1 = false ∧ v.testBit 0 = rs ∧
    (v ||| 0x04).testBit 1 = false ∧
    (v ||| 0x04) ^^^ v = 0x04 ∧
    v ||| 0x04 < 256 := by
  have hv1 : v = expander_byte b rs bl := hv
  subst hv1
  refine ⟨?_, ?_⟩
  · rw [write_nibble_eq, if_neg (not_lt.mpr h1)]
  · rw [expander_byte_mod]
    obtain ⟨hbits, hrest⟩ := expander_byte_layout_small rs bl (b % 16) (Nat.mod_lt _ (by decide))
    refine ⟨fun i hi => ?_, hrest⟩
    rw [hbits i hi, testBit_mod_16 b i hi]

theorem write_nibble_two_writes_witness :
    hd44780_write_nibble (fun _ _ => 0) [] 0x3 false true = (0, [] ++ [0x38 ||| 0x04, 0x38]) ∧
    (∀ i, i < 4 → (0x38 : Nat).testBit (4 + i) = (0x3 : Nat).testBit i) ∧
    (0x38 : Nat).testBit 3 = true ∧ (0x38 : Nat).testBit 2 = false ∧
    (0x38 : Nat).testBit 1 = false ∧ (0x38 : Nat).testBit 0 = false ∧
    ((0x38 : Nat) ||| 0x04).testBit 1 = false ∧
    ((0x38 : Nat) ||| 0x04) ^^^ 0x38 = 0x04 ∧
    (0x38 : Nat) ||| 0x04 < 256 :=
  write_nibble_two_writes (fun _ _ => 0) [] 0x3 false true 0x38 (by decide) (by decide) (by decide)

/-! ### Fail-stop sequences -/

theorem fail_stop_append (bus : Bus) (ret : Int) (log ws1 ws2 : List Nat) :
    fail_stop bus ret log (ws1 ++ ws2) =
      if (fail_stop bus ret log ws1).1 < 0 ∧ ws1 ≠ [] then fail_stop bus ret log ws1
      else fail_stop bus (fail_stop bus ret log ws1).1 (fail_stop bus ret log ws1).2 ws2 := by
  induction ws1 generalizing ret log with
  | nil => simp [fail_stop]
  | cons w ws ih =>
    rw [List.cons_append]
    simp only [fail_stop]
    by_cases hw : bus log w < 0
    · simp [hw]
    · simp only [hw, if_false]
      rw [ih]
      by_cases hws : ws = []
      · subst hws
        simp [fail_stop, hw]
      · simp [hws]

theorem fail_stop_ok (bus : Bus) (hok : bus_ok bus) (ret : Int) (log ws : List Nat) :
    (fail_stop bus ret log ws).2 = log ++ ws := by
  induction ws generalizing ret log with
  | nil => simp [fail_stop]
  | cons w ws ih =>
    simp only [fail_stop, if_neg (not_lt.mpr (hok log w))]
    rw [ih]
    simp

/-- The first failing write ends a fail-stop sequence. -/
theorem fail_stop_first_failure (bus : Bus) (ret : Int) (log ws : List Nat) (k : Nat)
    (hfail : bus (log ++ ws.take k) (ws.getD k 0) < 0) (hk : k < ws.length)
    (hprev : ∀ j, j < k → 0 ≤ bus (log ++ ws.take j) (ws.getD j 0)) :
    fail_stop bus ret log ws = (bus (log ++ ws.take k) (ws.getD k 0), log ++ ws.take (k + 1)) := by
  induction ws generalizing ret log k with
  | nil => simp at hk
  | cons w ws ih =>
    cases k with
    | zero =>
      simp only [List.take_zero, List.append_nil, List.getD_cons_zero] at hfail
      simp [fail_stop, hfail]
    | succ k =>
      have h0 := hprev 0 (Nat.succ_pos k)
      simp only [List.take_zero, List.append_nil, List.getD_cons_zero] at h0
      simp only [fail_stop, if_neg (not_lt.mpr h0)]
      have hfail1 : bus ((log ++ [w]) ++ ws.take k) (ws.getD k 0) < 0 := by
        simpa using hfail
      have hprev1 : ∀ j, j < k → 0 ≤ bus ((log ++ [w]) ++ ws.take j) (ws.getD j 0) := by
        intro j hj
        have := hprev (j + 1) (Nat.succ_lt_succ hj)
        simpa using this
      rw [ih (bus log w) (log ++ [w]) k hfail1 (by simpa using hk) hprev1]
      simp

theorem write_nibble_fail_stop (bus : Bus) (ret : Int) (log : List Nat) (b : Nat) (rs bl : Bool) :
    hd44780_write_nibble bus log b rs bl =
      fail_stop bus ret log [expander_byte b rs bl ||| 0x04, expander_byte b rs bl] := by
  rw [write_nibble_eq]
  simp only [fail_stop]
  by_cases h1 : bus log (expander_byte b rs bl ||| 0x04) < 0
  · simp [h1]
  · simp only [h1, if_false]
    by_cases h2 : bus (log ++ [expander_byte b rs bl ||| 0x04]) (expander_byte b rs bl) < 0
    · simp [h2]
    · simp [h2]

theorem nibble_writes_eq (b : Nat) (rs bl : Bool) :
    nibble_writes b rs bl = [expander_byte b rs bl ||| 0x04, expander_byte b rs bl] := by
  simp [nibble_writes, write_nibble_eq, ack_bus]

theorem expander_byte_and_15 (b : Nat) (rs bl : Bool) :
    expander_byte (b &&& 0x0F) rs bl = expander_byte b rs bl := by
  rw [expander_byte_mod, expander_byte_mod b, and_15_eq_mod, Nat.mod_mod]

/-- The encoder looks at the four low bits of its argument only. -/
theorem write_nibble_and_15 (bus : Bus) (log : List Nat) (b : Nat) (rs bl : Bool) :
    hd44780_write_nibble bus log (b &&& 0x0F) rs bl = hd44780_write_nibble bus log b rs bl := by
  rw [write_nibble_eq, write_nibble_eq, expander_byte_and_15]

theorem write_byte_eq (bus : Bus) (log : List Nat) (b : Nat) (rs bl : Bool) :
    hd44780_write_byte bus log b rs bl =
      if (hd44780_write_nibble bus log (b >>> 4) rs bl).1 < 0 then
        hd44780_write_nibble bus log (b >>> 4) rs bl
      else
        hd44780_write_nibble bus (hd44780_write_nibble bus log (b >>> 4) rs bl).2
          (b &&& 0x0F) rs bl := by
  simp only [hd44780_write_byte, Nat.shiftRight_zero, write_nibble_and_15]

theorem write_byte_fail_stop (bus : Bus) (ret : Int) (log : List Nat) (b : Nat) (rs bl : Bool) :
    hd44780_write_byte bus log b rs bl =
      fail_stop bus ret log
        ([expander_byte (b >>> 4) rs bl ||| 0x04, expander_byte (b >>> 4) rs bl] ++
         [expander_byte b rs bl ||| 0x04, expander_byte b rs bl]) := by
  rw [fail_stop_append, ← write_nibble_fail_stop, ← write_nibble_fail_stop]
  simp only [hd44780_write_byte, Nat.shiftRight_zero]
  simp

theorem byte_writes_eq (b : Nat) (rs bl : Bool) :
    byte_writes b rs bl =
      [expander_byte (b >>> 4) rs bl ||| 0x04, expander_byte (b >>> 4) rs bl,
       expander_byte b rs bl ||| 0x04, expander_byte b rs bl] := by
  rw [byte_writes, write_byte_fail_stop ack_bus 0, fail_stop_ok ack_bus (fun _ _ => le_refl _)]
  simp

theorem write_byte_ok (bus : Bus) (hok : bus_ok bus) (log : List Nat) (b : Nat) (rs bl : Bool) :
    (hd44780_write_byte bus log b rs bl).2 = log ++ byte_writes b rs bl := by
  rw [write_byte_fail_stop bus 0, fail_stop_ok bus hok, byte_writes_eq]
  simp

theorem write_nibble_ok (bus : Bus) (hok : bus_ok bus) (log : List Nat) (b : Nat) (rs bl : Bool) :
    (hd44780_write_nibble bus log b rs bl).2 = log ++ nibble_writes b rs bl := by
  rw [write_nibble_fail_stop bus 0, fail_stop_ok bus hok, nibble_writes_eq]

theorem write_nibble_nonneg (bus : Bus) (log : List Nat) (b : Nat) (rs bl : Bool)
    (h : (0 : Int) ≤ (hd44780_write_nibble bus log b rs bl).1) :
    (hd44780_write_nibble bus log b rs bl).2 = log ++ nibble_writes b rs bl := by
  rw [nibble_writes_eq]
  rw [write_nibble_eq] at h ⊢
  by_cases h1 : bus log (expander_byte b rs bl ||| 0x04) < 0
  · rw [if_pos h1] at h
    exact absurd h (not_le.mpr h1)
  · rw [if_neg h1]

/-! ### The byte protocol layer -/

/-- C2. When no write fails (the return code of `hd44780_write_byte` is not
negative), `hd44780_write_byte` is two runs of the nibble encoder, the first
on the high nibble `b >> 4`, the second, started in the state the first one
leaves, on the low nibble `b & 0x0F`, both with the flags `rs` and `bl` of the
byte: the log grows by the two writes of the high nibble followed by the two
writes of the low nibble, four writes in all. -/
theorem write_byte_high_then_low (bus : Bus) (log : List Nat) (b : Nat) (rs bl : Bool)
    (h : (0 : Int) ≤ (hd44780_write_byte bus log b rs bl).1) :
    hd44780_write_byte bus log b rs bl =
      hd44780_write_nibble bus (hd44780_write_nibble bus log (b >>> 4) rs bl).2
        (b &&& 0x0F) rs bl ∧
    (hd44780_write_nibble bus log (b >>> 4) rs bl).2 = log ++ nibble_writes (b >>> 4) rs bl ∧
    (hd44780_write_byte bus log b rs bl).2 =
      log ++ nibble_writes (b >>> 4) rs bl ++ nibble_writes (b &&& 0x0F) rs bl ∧
    (nibble_writes (b >>> 4) rs bl ++ nibble_writes (b &&& 0x0F) rs bl).length = 4 := by
  have hhi : (0 : Int) ≤ (hd44780_write_nibble bus log (b >>> 4) rs bl).1 := by
    by_contra hneg
    rw [write_byte_eq, if_pos (not_le.mp hneg)] at h
    exact hneg h
  have heq := write_byte_eq bus log b rs bl
  rw [if_neg (not_lt.mpr hhi)] at heq
  have hlog := write_nibble_nonneg bus log (b >>> 4) rs bl hhi
  refine ⟨heq, hlog, ?_, by simp [nibble_writes_eq]⟩
  rw [heq] at h ⊢
  rw [write_nibble_nonneg bus _ (b &&& 0x0F) rs bl h, hlog]

theorem write_byte_high_then_low_witness :
    hd44780_write_byte ack_bus [] 0xA5 true true =
      hd44780_write_nibble ack_bus (hd44780_write_nibble ack_bus [] 0xA true true).2
        0x5 true true ∧
    (hd44780_write_nibble ack_bus [] 0xA true true).2 = [] ++ nibble_writes 0xA true true ∧
    (hd44780_write_byte ack_bus [] 0xA5 true true).2 =
      [] ++ nibble_writes 0xA true true ++ nibble_writes 0x5 true true ∧
    (nibble_writes 0xA true true ++ nibble_writes 0x5 true true).length = 4 :=
  write_byte_high_then_low ack_bus [] 0xA5 true true (by decide)

/-- C3. Fail-stop of the protocol layers.  Let `ws` be the writes the layer
issues when every write succeeds.  If write number `k` of `ws` is the first
one the transport refuses (a negative code), the layer issues exactly the
first `k + 1` bytes of `ws` and returns that negative code; this holds for
`hd44780_write_nibble` and for `hd44780_write_byte`.  In particular a refused
strobe-high write leaves one write in all, and a failure inside the high
nibble of `hd44780_write_byte` ends the call with the writes of that nibble
run only. -/
theorem protocol_fail_stop (bus : Bus) (log : List Nat) (b : Nat) (rs bl : Bool) :
    (∀ k, k < (nibble_writes b rs bl).length →
      bus (log ++ (nibble_writes b rs bl).take k) ((nibble_writes b rs bl).getD k 0) < 0 →
      (∀ j, j < k →
        0 ≤ bus (log ++ (nibble_writes b rs bl).take j) ((nibble_writes b rs bl).getD j 0)) →
      hd44780_write_nibble bus log b rs bl =
        (bus (log ++ (nibble_writes b rs bl).take k) ((nibble_writes b rs bl).getD k 0),
          log ++ (nibble_writes b rs bl).take (k + 1))) ∧
    (∀ k, k < (byte_writes b rs bl).length →
      bus (log ++ (byte_writes b rs bl).take k) ((byte_writes b rs bl).getD k 0) < 0 →
      (∀ j, j < k →
        0 ≤ bus (log ++ (byte_writes b rs bl).take j) ((byte_writes b rs bl).getD j 0)) →
      hd44780_write_byte bus log b rs bl =
        (bus (log ++ (byte_writes b rs bl).take k) ((byte_writes b rs bl).getD k 0),
          log ++ (byte_writes b rs bl).take (k + 1))) ∧
    (bus log ((nibble_writes b rs bl).getD 0 0) < 0 →
      hd44780_write_nibble bus log b rs bl =
        (bus log ((nibble_writes b rs bl).getD 0 0), log ++ [(nibble_writes b rs bl).getD 0 0])) ∧
    ((hd44780_write_nibble bus log (b >>> 4) rs bl).1 < 0 →
      hd44780_write_byte bus log b rs bl = hd44780_write_nibble bus log (b >>> 4) rs bl ∧
      (hd44780_write_byte bus log b rs bl).2.length ≤ log.length + 2) := by
  refine ⟨?_, ?_, ?_, ?_⟩
  · intro k hk hfail hprev
    rw [write_nibble_fail_stop bus 0 log b rs bl, ← nibble_writes_eq]
    exact fail_stop_first_failure bus 0 log _ k hfail hk hprev
  · intro k hk hfail hprev
    rw [write_byte_fail_stop bus 0 log b rs bl]
    have hseq : [expander_byte (b >>> 4) rs bl ||| 0x04, expander_byte (b >>> 4) rs bl] ++
        [expander_byte b rs bl ||| 0x04, expander_byte b rs bl] = byte_writes b rs bl := by
      rw [byte_writes_eq]; rfl
    rw [hseq]
    exact fail_stop_first_failure bus 0 log _ k hfail hk hprev
  · intro hfail
    rw [nibble_writes_eq] at hfail ⊢
    simp only [List.getD_cons_zero] at hfail ⊢
    rw [write_nibble_eq, if_pos hfail]
  · intro hfail
    have heq : hd44780_write_byte bus log b rs bl = hd44780_write_nibble bus log (b >>> 4) rs bl := by
      rw [write_byte_eq, if_pos hfail]
    refine ⟨heq, ?_⟩
    rw [heq, write_nibble_eq]
    split <;> simp

theorem protocol_fail_stop_witness :
    hd44780_write_nibble (nth_write_fails 1) [] 0x5 true true =
      (nth_write_fails 1 ([] ++ (nibble_writes 0x5 true true).take 1)
          ((nibble_writes 0x5 true true).getD 1 0),
        [] ++ (nibble_writes 0x5 true true).take (1 + 1)) ∧
    hd44780_write_byte (nth_write_fails 2) [] 0xA5 false true =
      (nth_write_fails 2 ([] ++ (byte_writes 0xA5 false true).take 2)
          ((byte_writes 0xA5 false true).getD 2 0),
        [] ++ (byte_writes 0xA5 false true).take (2 + 1)) ∧
    hd44780_write_nibble (nth_write_fails 0) [] 0x5 true true =
      (nth_write_fails 0 [] ((nibble_writes 0x5 true true).getD 0 0),
        [] ++ [(nibble_writes 0x5 true true).getD 0 0]) ∧
    (hd44780_write_byte (nth_write_fails 1) [] 0xA5 false true =
        hd44780_write_nibble (nth_write_fails 1) [] (0xA5 >>> 4) false true ∧
      (hd44780_write_byte (nth_write_fails 1) [] 0xA5 false true).2.length ≤
        ([] : List Nat).length + 2) :=
  ⟨(protocol_fail_stop (nth_write_fails 1) [] 0x5 true true).1 1 (by decide) (by decide)
      (by decide),
    (protocol_fail_stop (nth_write_fails 2) [] 0xA5 false true).2.1 2 (by decide) (by decide)
      (by decide),
    (protocol_fail_stop (nth_write_fails 0) [] 0x5 true true).2.2.1 (by decide),
    (protocol_fail_stop (nth_write_fails 1) [] 0xA5 false true).2.2.2 (by decide)⟩

/-! ### The command layer -/

/-- C4. For every row `r` in 0..3 and column `c` in 0..19,
`hd44780_dev_gotoxy(c, r)` hands the byte protocol layer the command
`0x80 + line_addr[r] + c` truncated to 8 bits, which equals
`0x80 | (line_addr[r] + c)`, with register select false; the table is
`[0x00, 0x40, 0x14, 0x54]`, and it is not linear: `line_addr[2] <
line_addr[1] + 20`. -/
theorem gotoxy_set_address (bus : Bus) (log : List Nat) (c r : Nat) (hr : r < 4) (hc : c < 20) :
    hd44780_dev_gotoxy bus log c r =
      some (hd44780_write_byte bus log (0x80 ||| (line_addr.getD r 0 + c)) false true).2 ∧
    (HD44780_CMD_DDRAM_ADDR + line_addr.getD r 0 + c) % 256 = 0x80 ||| (line_addr.getD r 0 + c) ∧
    line_addr = [0x00, 0x40, 0x14, 0x54] ∧
    line_addr.getD 2 0 < line_addr.getD 1 0 + 20 := by
  have harith : ∀ r, r < 4 → ∀ c, c < 20 →
      (HD44780_CMD_DDRAM_ADDR + line_addr.getD r 0 + c) % 256 =
        0x80 ||| (line_addr.getD r 0 + c) := by decide
  refine ⟨?_, harith r hr c hc, by decide, by decide⟩
  rw [← harith r hr c hc]
  interval_cases r <;> rfl

theorem gotoxy_set_address_witness :
    hd44780_dev_gotoxy ack_bus [] 19 2 =
      some (hd44780_write_byte ack_bus [] (0x80 ||| (line_addr.getD 2 0 + 19)) false true).2 ∧
    (HD44780_CMD_DDRAM_ADDR + line_addr.getD 2 0 + 19) % 256 =
      0x80 ||| (line_addr.getD 2 0 + 19) ∧
    line_addr = [0x00, 0x40, 0x14, 0x54] ∧
    line_addr.getD 2 0 < line_addr.getD 1 0 + 20 :=
  gotoxy_set_address ack_bus [] 19 2 (by decide) (by decide)

theorem control_ok (bus : Bus) (hok : bus_ok bus) (log : List Nat) (o c k : Bool) :
    hd44780_dev_control bus log o c k =
      log ++ byte_writes ((HD44780_CMD_DISPLAY_CTRL |||
        (if o then HD44780_ARG_DC_DISPLAY_ON else 0) |||
        (if c then HD44780_ARG_DC_CURSOR_ON else 0) |||
        (if k then HD44780_ARG_DC_CURSOR_BLINK else 0)) % 256) false true := by
  rw [hd44780_dev_control, write_byte_ok bus hok]

theorem clear_ok (bus : Bus) (hok : bus_ok bus) (log : List Nat) :
    hd44780_dev_clear bus log = log ++ byte_writes HD44780_CMD_CLEAR false true := by
  rw [hd44780_dev_clear, write_byte_ok bus hok]

/-- C5. On a transport where every write succeeds, `hd44780_dev_init` issues
three nibble pulses `0x3`, one nibble pulse `0x2`, then the bytes `0x28`,
`0x08`, `0x01`, `0x06` and `0x0F`, all with register select 0 (the entry mode
byte `0x06` goes out with the backlight bit clear, the others with it set):
as expander bytes, the 28 writes listed, with nothing before, between or
after them. -/
theorem init_canonical_sequence (bus : Bus) (log : List Nat) (hok : bus_ok bus) :
    hd44780_dev_init bus log =
      log ++ (nibble_writes 0x3 false true ++ nibble_writes 0x3 false true ++
        nibble_writes 0x3 false true ++ nibble_writes 0x2 false true ++
        byte_writes 0x28 false true ++ byte_writes 0x08 false true ++
        byte_writes 0x01 false true ++ byte_writes 0x06 false false ++
        byte_writes 0x0F false true) ∧
    hd44780_dev_init bus log =
      log ++ [0x3C, 0x38, 0x3C, 0x38, 0x3C, 0x38, 0x2C, 0x28, 0x2C, 0x28, 0x8C, 0x88,
        0x0C, 0x08, 0x8C, 0x88, 0x0C, 0x08, 0x1C, 0x18, 0x04, 0x00, 0x64, 0x60,
        0x0C, 0x08, 0xFC, 0xF8] ∧
    (hd44780_dev_init bus log).length = log.length + 28 := by
  have h : hd44780_dev_init bus log =
      log ++ (nibble_writes 0x3 false true ++ nibble_writes 0x3 false true ++
        nibble_writes 0x3 false true ++ nibble_writes 0x2 false true ++
        byte_writes 0x28 false true ++ byte_writes 0x08 false true ++
        byte_writes 0x01 false true ++ byte_writes 0x06 false false ++
        byte_writes 0x0F false true) := by
    simp only [hd44780_dev_init, init_loop, control_ok bus hok, clear_ok bus hok,
      write_byte_ok bus hok, write_nibble_ok bus hok, List.append_assoc]
    rfl
  have h28 : nibble_writes 0x3 false true ++ nibble_writes 0x3 false true ++
        nibble_writes 0x3 false true ++ nibble_writes 0x2 false true ++
        byte_writes 0x28 false true ++ byte_writes 0x08 false true ++
        byte_writes 0x01 false true ++ byte_writes 0x06 false false ++
        byte_writes 0x0F false true =
      [0x3C, 0x38, 0x3C, 0x38, 0x3C, 0x38, 0x2C, 0x28, 0x2C, 0x28, 0x8C, 0x88,
        0x0C, 0x08, 0x8C, 0x88, 0x0C, 0x08, 0x1C, 0x18, 0x04, 0x00, 0x64, 0x60,
        0x0C, 0x08, 0xFC, 0xF8] := by decide
  refine ⟨h, ?_, ?_⟩
  · rw [h, h28]
  · rw [h, h28]; simp

theorem init_canonical_sequence_witness :
    hd44780_dev_init ack_bus [] =
      [] ++ (nibble_writes 0x3 false true ++ nibble_writes 0x3 false true ++
        nibble_writes 0x3 false true ++ nibble_writes 0x2 false true ++
        byte_writes 0x28 false true ++ byte_writes 0x08 false true ++
        byte_writes 0x01 false true ++ byte_writes 0x06 false false ++
        byte_writes 0x0F false true) ∧
    hd44780_dev_init ack_bus [] =
      [] ++ [0x3C, 0x38, 0x3C, 0x38, 0x3C, 0x38, 0x2C, 0x28, 0x2C, 0x28, 0x8C, 0x88,
        0x0C, 0x08, 0x8C, 0x88, 0x0C, 0x08, 0x1C, 0x18, 0x04, 0x00, 0x64, 0x60,
        0x0C, 0x08, 0xFC, 0xF8] ∧
    (hd44780_dev_init ack_bus []).length = ([] : List Nat).length + 28 :=
  init_canonical_sequence ack_bus [] (fun _ _ => le_refl _)

/-! ### Character and string output -/

theorem fail_stop_nonneg (bus : Bus) (hok : bus_ok bus) (ret : Int) (hret : 0 ≤ ret)
    (log ws : List Nat) : 0 ≤ (fail_stop bus ret log ws).1 := by
  induction ws generalizing ret log with
  | nil => simpa [fail_stop] using hret
  | cons w ws ih =>
    simp only [fail_stop, if_neg (not_lt.mpr (hok log w))]
    exact ih _ (hok log w) _

theorem putc_nonneg (bus : Bus) (hok : bus_ok bus) (log : List Nat) (c : Nat) :
    0 ≤ (hd44780_dev_putc bus log c).1 := by
  rw [hd44780_dev_putc, write_byte_fail_stop bus 0]
  exact fail_stop_nonneg bus hok 0 (le_refl _) _ _

theorem putc_each_cons (bus : Bus) (log : List Nat) (c : Nat) (s : List Nat) :
    putc_each bus log (c :: s) = putc_each bus (hd44780_dev_putc bus log c).2 s := rfl

theorem putc_each_ok (bus : Bus) (hok : bus_ok bus) (log s : List Nat) :
    putc_each bus log s = log ++ string_writes s := by
  induction s generalizing log with
  | nil => simp [putc_each, string_writes]
  | cons c s ih =>
    rw [putc_each_cons, ih, hd44780_dev_putc, write_byte_ok bus hok]
    simp [string_writes]

theorem string_writes_length (s : List Nat) : (string_writes s).length = 4 * s.length := by
  induction s with
  | nil => rfl
  | cons c s ih =>
    have hc : string_writes (c :: s) = byte_writes (c % 256) true true ++ string_writes s := rfl
    rw [hc, List.length_append, ih, byte_writes_eq]
    simp only [List.length_cons, List.length_nil]
    omega

theorem puts_nonneg (bus : Bus) (hok : bus_ok bus) (ret : Int) (hret : 0 ≤ ret)
    (log mem : List Nat) : 0 ≤ (hd44780_dev_puts bus ret log mem).1 := by
  induction mem generalizing ret log with
  | nil => simpa [hd44780_dev_puts] using hret
  | cons c s ih =>
    simp only [hd44780_dev_puts]
    by_cases hc : c = 0
    · simpa [hc] using hret
    · rw [if_neg hc, if_neg (not_lt.mpr (putc_nonneg bus hok log c))]
      exact ih _ (putc_nonneg bus hok log c) _

theorem puts_all_ok (bus : Bus) (hok : bus_ok bus) (ret : Int) (log s tl : List Nat)
    (hnz : ∀ c ∈ s, c ≠ 0) :
    (hd44780_dev_puts bus ret log (s ++ 0 :: tl)).2 = putc_each bus log s := by
  induction s generalizing ret log with
  | nil => simp [hd44780_dev_puts, putc_each]
  | cons c s ih =>
    rw [List.cons_append]
    simp only [hd44780_dev_puts]
    rw [if_neg (hnz c (List.mem_cons_self c s)),
      if_neg (not_lt.mpr (putc_nonneg bus hok log c)), putc_each_cons]
    exact ih _ _ (fun x hx => hnz x (List.mem_cons_of_mem c hx))

theorem puts_first_failure (bus : Bus) (ret : Int) (log s tl : List Nat)
    (hnz : ∀ c ∈ s, c ≠ 0) (k : Nat) (hk : k < s.length)
    (hfail : (hd44780_dev_putc bus (putc_each bus log (s.take k)) (s.getD k 0)).1 < 0)
    (hprev : ∀ j, j < k →
      0 ≤ (hd44780_dev_putc bus (putc_each bus log (s.take j)) (s.getD j 0)).1) :
    hd44780_dev_puts bus ret log (s ++ 0 :: tl) =
      hd44780_dev_putc bus (putc_each bus log (s.take k)) (s.getD k 0) := by
  induction s generalizing ret log k with
  | nil => simp at hk
  | cons c s ih =>
    rw [List.cons_append]
    simp only [hd44780_dev_puts]
    rw [if_neg (hnz c (List.mem_cons_self c s))]
    cases k with
    | zero =>
      have hf : (hd44780_dev_putc bus log c).1 < 0 := hfail
      rw [if_pos hf]
      rfl
    | succ k =>
      have h0 : 0 ≤ (hd44780_dev_putc bus log c).1 := hprev 0 (Nat.succ_pos k)
      rw [if_neg (not_lt.mpr h0)]
      exact ih _ _ (fun x hx => hnz x (List.mem_cons_of_mem c hx)) k
        (by simpa using hk) hfail (fun j hj => hprev (j + 1) (Nat.succ_lt_succ hj))

/-- C6. Let `s` be a non-empty string without an embedded NUL, stored at the
address given to `hd44780_dev_puts` (followed by its terminator and by
whatever bytes `tl` come after it).  On a transport where every write
succeeds, the log after the call is the log after `hd44780_dev_putc` has been
run on `s[0]`, `s[1]`, ... in that order, which is `4 * len(s)` writes, the
data bytes of the characters with register select true, and the return code
is not negative.  On any transport, if the `hd44780_dev_putc` of character
`k` is the first one to fail, the call ends with the state and the return
code of that `hd44780_dev_putc`: no later character is written. -/
theorem puts_char_by_char (bus : Bus) (ret : Int) (log s tl : List Nat)
    (hs : s ≠ []) (hnz : ∀ c ∈ s, c ≠ 0) :
    (bus_ok bus →
      (hd44780_dev_puts bus ret log (s ++ 0 :: tl)).2 = putc_each bus log s ∧
      putc_each bus log s = log ++ string_writes s ∧
      (string_writes s).length = 4 * s.length ∧
      0 ≤ (hd44780_dev_puts bus ret log (s ++ 0 :: tl)).1) ∧
    (∀ k, k < s.length →
      (hd44780_dev_putc bus (putc_each bus log (s.take k)) (s.getD k 0)).1 < 0 →
      (∀ j, j < k →
        0 ≤ (hd44780_dev_putc bus (putc_each bus log (s.take j)) (s.getD j 0)).1) →
      hd44780_dev_puts bus ret log (s ++ 0 :: tl) =
        hd44780_dev_putc bus (putc_each bus log (s.take k)) (s.getD k 0)) := by
  refine ⟨fun hok => ⟨puts_all_ok bus hok ret log s tl hnz, putc_each_ok bus hok log s,
    string_writes_length s, ?_⟩, fun k hk hfail hprev =>
      puts_first_failure bus ret log s tl hnz k hk hfail hprev⟩
  cases s with
  | nil => exact absurd rfl hs
  | cons c s =>
    rw [List.cons_append]
    simp only [hd44780_dev_puts]
    rw [if_neg (hnz c (List.mem_cons_self c s)),
      if_neg (not_lt.mpr (putc_nonneg bus hok log c))]
    exact puts_nonneg bus hok _ (putc_nonneg bus hok log c) _ _

theorem puts_char_by_char_witness :
    ((hd44780_dev_puts ack_bus (-1) [] ([104, 105, 33] ++ 0 :: [])).2 =
        putc_each ack_bus [] [104, 105, 33] ∧
      putc_each ack_bus [] [104, 105, 33] = [] ++ string_writes [104, 105, 33] ∧
      (string_writes [104, 105, 33]).length = 4 * ([104, 105, 33] : List Nat).length ∧
      0 ≤ (hd44780_dev_puts ack_bus (-1) [] ([104, 105, 33] ++ 0 :: [])).1) ∧
    hd44780_dev_puts (nth_write_fails 5) (-1) [] ([104, 105, 33] ++ 0 :: []) =
      hd44780_dev_putc (nth_write_fails 5)
        (putc_each (nth_write_fails 5) [] (([104, 105, 33] : List Nat).take 1))
        (([104, 105, 33] : List Nat).getD 1 0) :=
  ⟨(puts_char_by_char ack_bus (-1) [] [104, 105, 33] [] (by decide) (by decide)).1
      (fun _ _ => le_refl _),
    (puts_char_by_char (nth_write_fails 5) (-1) [] [104, 105, 33] [] (by decide)
      (by decide)).2 1 (by decide) (by decide) (by decide)⟩

/-! ### The write handler -/

theorem cstr_append_zero (s tl : List Nat) (hnz : ∀ c ∈ s, c ≠ 0) :
    cstr (s ++ 0 :: tl) = s := by
  induction s with
  | nil => simp [cstr]
  | cons c s ih =>
    have hc : c ≠ 0 := hnz c (List.mem_cons_self c s)
    have ih1 := ih (fun x hx => hnz x (List.mem_cons_of_mem c hx))
    have hb : (c != 0) = true := by simpa using hc
    simp only [cstr] at ih1 ⊢
    rw [List.cons_append, List.takeWhile_cons, hb, if_pos rfl, ih1]

theorem strstr_none_iff (m s : List Nat) : strstr s m = none ↔ ¬ m <:+: s := by
  induction s with
  | nil =>
    unfold strstr
    cases m with
    | nil => simp
    | cons a m => simp [List.isPrefixOf]
  | cons c t ih =>
    unfold strstr
    by_cases hp : m.isPrefixOf (c :: t) = true
    · rw [if_pos hp]
      have : m <+: c :: t := List.isPrefixOf_iff_prefix.mp hp
      simp [this.isInfix]
    · rw [if_neg hp, ih]
      have hnp : ¬ m <+: c :: t := fun h => hp (List.isPrefixOf_iff_prefix.mpr h)
      rw [List.infix_cons_iff]
      tauto

theorem request_buf (text : List Nat) (t : Nat) :
    ((text ++ [t]).take (text.length + 1)).set (text.length + 1 - 1) 0 = text ++ [0] := by
  induction text with
  | nil => rfl
  | cons c s ih =>
    simp only [List.length_cons, Nat.add_sub_cancel, List.cons_append, List.take_succ_cons,
      List.set_cons_succ] at ih ⊢
    rw [ih]

theorem write_file_literal (bus : Bus) (ulong_max : Nat) (cmd : List Nat) (puts_ret : Int)
    (log text : List Nat) (t : Nat)
    (hlen : text.length < 16) (hnz : ∀ c ∈ text, c ≠ 0) (hno : ¬ marker <:+: text) :
    lcd2004_write_file bus ulong_max cmd puts_ret log (text ++ [t]) (text.length + 1) =
      some (((text.length + 1 : Nat) : Int),
        (hd44780_dev_puts bus puts_ret log (text ++ [0])).2) := by
  have hcount : ¬ (text.length + 1 = 0 ∨ 16 < text.length + 1) := by omega
  have hcopy : ¬ (text ++ [t]).length < text.length + 1 := by simp
  have hstr : strstr (cstr (text ++ [0])) marker = none := by
    rw [cstr_append_zero text [] hnz]
    exact (strstr_none_iff marker text).mpr hno
  unfold lcd2004_write_file
  rw [if_neg hcount, if_neg hcopy]
  simp only [request_buf, hstr]
  simp


theorem fixup_radix_digit (d y : Nat) (rest : List Nat) (hy : y ||| 0x20 ≠ 120) :
    _parse_integer_fixup_radix (d :: y :: rest) 0 =
      (d :: y :: rest, if d = 48 then 8 else 10) := by
  by_cases hd : d = 48
  · simp [_parse_integer_fixup_radix, byte_at, _tolower, hd, hy]
  · simp [_parse_integer_fixup_radix, byte_at, _tolower, hd]

theorem parse_integer_digit_nul (base d : Nat) (rest : List Nat)
    (hd1 : 48 ≤ d) (hd2 : d ≤ 57) (hb : d - 48 < base) :
    _parse_integer base 0 0 false (d :: 0 :: rest) = (d - 48, 1, false) := by
  have hmod : (0 * base + (d - 48)) % 2 ^ 64 = d - 48 := by
    rw [Nat.zero_mul, Nat.zero_add]
    exact Nat.mod_eq_of_lt (by omega)
  simp only [_parse_integer]
  rw [if_pos ⟨hd1, hd2⟩, if_neg (by omega), hmod]
  simp

theorem kstrtoull_digit_nul (d : Nat) (rest : List Nat) (hd1 : 48 ≤ d) (hd2 : d ≤ 57) :
    kstrtoull (d :: 0 :: rest) 0 = Except.ok (d - 48) := by
  have hplus : ¬ byte_at (d :: 0 :: rest) 0 = 43 := by simp [byte_at]; omega
  have hbase : d - 48 < (if d = 48 then 8 else 10) := by split <;> omega
  simp only [kstrtoull, if_neg hplus, _kstrtoull, fixup_radix_digit d 0 rest (by decide),
    parse_integer_digit_nul _ d rest hd1 hd2 hbase]
  simp [byte_at]

theorem kstrtoull_digit_end (d : Nat) (hd1 : 48 ≤ d) (hd2 : d ≤ 57) :
    kstrtoull [d] 0 = Except.ok (d - 48) := by
  interval_cases d <;> decide

/-- A single decimal digit followed by a terminator parses to its value. -/
theorem kstrtoul_digit (ulong_max d : Nat) (m : List Nat) (hu : 9 ≤ ulong_max)
    (hd1 : 48 ≤ d) (hd2 : d ≤ 57) (hm : byte_at m 0 = 0) :
    kstrtoul ulong_max (d :: m) 0 = Except.ok (d - 48) := by
  have h : kstrtoull (d :: m) 0 = Except.ok (d - 48) := by
    cases m with
    | nil => exact kstrtoull_digit_end d hd1 hd2
    | cons y rest =>
      have hy : y = 0 := by simpa [byte_at] using hm
      subst hy
      exact kstrtoull_digit_nul d rest hd1 hd2
  simp only [kstrtoul, h]
  rw [if_neg (by omega)]

/-- The handler on a five-byte request "___" + `k` + terminator. -/
theorem write_file_selector (bus : Bus) (ulong_max : Nat) (cmd : List Nat) (puts_ret : Int)
    (log : List Nat) (k t : Nat) (hk : k ≠ 0) :
    lcd2004_write_file bus ulong_max cmd puts_ret log [95, 95, 95, k, t] 5 =
      match kstrtoul ulong_max (k :: cmd.drop 1) 0 with
      | Except.error _ => some (-EINVAL, log)
      | Except.ok val =>
        if val = 0 then some (5, hd44780_dev_clear bus log)
        else if val > 0 ∧ val ≤ 4 then
          match hd44780_dev_gotoxy bus log 0 ((val - 1) % 256) with
          | none => none
          | some log1 => some (5, log1)
        else some (5, (hd44780_dev_puts bus puts_ret log invalid_command).2) := by
  have hb : (k != 0) = true := by simpa using hk
  have hcstr : cstr [95, 95, 95, k, 0] = [95, 95, 95, k] := by
    simp [cstr, List.takeWhile, hb]
  have hstr : (strstr [95, 95, 95, k] marker).isSome = true := by
    simp [strstr, marker, List.isPrefixOf]
  simp [lcd2004_write_file, hcstr, hstr, store0, byte_at]


theorem cstr_set_zero_length (l : List Nat) (i : Nat) (hi : i < l.length) :
    (cstr (l.set i 0)).length ≤ i := by
  induction l generalizing i with
  | nil => simp at hi
  | cons c l ih =>
    cases i with
    | zero => simp [cstr, List.takeWhile]
    | succ i =>
      have hi1 : i < l.length := by simpa using hi
      have := ih i hi1
      simp only [cstr, List.set_cons_succ, List.takeWhile_cons] at this ⊢
      split
      · simpa using this
      · simp

/-- The selector is read from bytes that were copied in: when the marker is
found in the buffer, the request has at least four bytes, so `buf[2]` and
`buf[3]` lie inside the copied part of `buf`. -/
theorem selector_bytes_copied (userbuf : List Nat) (count : Nat)
    (h1 : 0 < count) (h2 : count ≤ userbuf.length)
    (hfound : (strstr (cstr ((userbuf.take count).set (count - 1) 0)) marker).isSome = true) :
    4 ≤ count := by
  have hin : marker <:+: cstr ((userbuf.take count).set (count - 1) 0) := by
    by_contra hno
    rw [(strstr_none_iff marker _).mpr hno] at hfound
    simp at hfound
  have h3 : 3 ≤ (cstr ((userbuf.take count).set (count - 1) 0)).length := hin.length_le
  have hlen : count - 1 < (userbuf.take count).length := by
    rw [List.length_take]; omega
  have := cstr_set_zero_length (userbuf.take count) (count - 1) hlen
  omega

theorem byte_at_drop_one (cmd : List Nat) : byte_at (cmd.drop 1) 0 = byte_at cmd 1 := by
  cases cmd <;> simp [byte_at]

theorem literal_bytes :
    (Char.toNat <$> "Invalid command".toList) ++ [0] = invalid_command ∧
    Char.toNat <$> "___".toList = marker := by decide

/-- When the byte after `cmd[0]` is a terminator, the request "___0" clears
the display and nothing else, whatever its last byte. -/
theorem write_file_clear_terminated (bus : Bus) (ulong_max : Nat) (cmd : List Nat)
    (puts_ret : Int) (log : List Nat) (t : Nat) (hu : 9 ≤ ulong_max)
    (hcmd : byte_at cmd 1 = 0) :
    lcd2004_write_file bus ulong_max cmd puts_ret log [95, 95, 95, 48, t] 5 =
      some (5, hd44780_dev_clear bus log) := by
  rw [write_file_selector bus ulong_max cmd puts_ret log 48 t (by decide),
    kstrtoul_digit ulong_max 48 _ hu (by decide) (by decide)
      ((byte_at_drop_one cmd).trans hcmd)]
  rfl

/-- When the byte after `cmd[0]` is a terminator, the request "___k" with `k`
in '1'..'4' sends the one command `0x80 + line_addr[k - 1]`. -/
theorem write_file_gotoxy_terminated (bus : Bus) (ulong_max : Nat) (cmd : List Nat)
    (puts_ret : Int) (log : List Nat) (k t : Nat) (hu : 9 ≤ ulong_max)
    (hcmd : byte_at cmd 1 = 0) (hk1 : 49 ≤ k) (hk2 : k ≤ 52) :
    lcd2004_write_file bus ulong_max cmd puts_ret log [95, 95, 95, k, t] 5 =
      some (5, (hd44780_write_byte bus log (0x80 + line_addr.getD (k - 49) 0) false true).2) ∧
    hd44780_dev_gotoxy bus log 0 (k - 49) =
      some (hd44780_write_byte bus log (0x80 + line_addr.getD (k - 49) 0) false true).2 := by
  rw [write_file_selector bus ulong_max cmd puts_ret log k t (by omega),
    kstrtoul_digit ulong_max k _ hu (by omega) (by omega)
      ((byte_at_drop_one cmd).trans hcmd)]
  interval_cases k <;> exact ⟨rfl, rfl⟩

/-- When the byte after `cmd[0]` is a terminator, the request "___k" with `k`
in '5'..'9' writes the string "Invalid command" and returns 5. -/
theorem write_file_invalid_terminated (bus : Bus) (ulong_max : Nat) (cmd : List Nat)
    (puts_ret : Int) (log : List Nat) (k t : Nat) (hu : 9 ≤ ulong_max)
    (hcmd : byte_at cmd 1 = 0) (hk1 : 53 ≤ k) (hk2 : k ≤ 57) :
    lcd2004_write_file bus ulong_max cmd puts_ret log [95, 95, 95, k, t] 5 =
      some (5, (hd44780_dev_puts bus puts_ret log invalid_command).2) := by
  rw [write_file_selector bus ulong_max cmd puts_ret log k t (by omega),
    kstrtoul_digit ulong_max k _ hu (by omega) (by omega)
      ((byte_at_drop_one cmd).trans hcmd)]
  interval_cases k <;> rfl

/-- C7, the code at a failing input.  Request "___0" + NUL on a transport that
acknowledges every write.  With the bytes '7', NUL left in `cmd[1]`, `cmd[2]`
the selector reads "07": the string "Invalid command" is written and the
display is not cleared.  With a byte 0xFF left in `cmd[1]` the selector does
not parse: the call returns `-EINVAL` and writes nothing. -/
theorem clear_request_stale_selector :
    lcd2004_write_file ack_bus 4294967295 [0, 55, 0] 0 [] [95, 95, 95, 48, 0] 5 =
      some (5, string_writes (cstr invalid_command)) ∧
    lcd2004_write_file ack_bus 4294967295 [0, 255, 0] 0 [] [95, 95, 95, 48, 0] 5 =
      some (-22, []) ∧
    hd44780_dev_clear ack_bus [] = [0x0C, 0x08, 0x1C, 0x18] ∧
    string_writes (cstr invalid_command) ≠ hd44780_dev_clear ack_bus [] := by
  decide

/-- C8, the code at a failing input.  Request "___2" + NUL on a transport that
acknowledges every write.  With the bytes '0', NUL left in `cmd[1]`, `cmd[2]`
the selector reads "20": the string "Invalid command" is written and no
set-address command is sent.  With the byte 'x' left in `cmd[1]` the selector
does not parse: the call returns `-EINVAL` and writes nothing. -/
theorem gotoxy_request_stale_selector :
    lcd2004_write_file ack_bus 4294967295 [0, 48, 0] 0 [] [95, 95, 95, 50, 0] 5 =
      some (5, string_writes (cstr invalid_command)) ∧
    lcd2004_write_file ack_bus 4294967295 [0, 120, 0] 0 [] [95, 95, 95, 50, 0] 5 =
      some (-22, []) ∧
    hd44780_dev_gotoxy ack_bus [] 0 1 = some [0xCC, 0xC8, 0x0C, 0x08] ∧
    string_writes (cstr invalid_command) ≠ [0xCC, 0xC8, 0x0C, 0x08] := by
  decide

/-- C9, the code at a failing input.  Request "___9" + NUL on a transport that
acknowledges every write, with the byte 'x' left in `cmd[1]`: the selector
reads "9x" and does not parse, the call returns `-EINVAL` instead of 5 and
the string "Invalid command" is not written. -/
theorem invalid_request_stale_selector :
    lcd2004_write_file ack_bus 4294967295 [0, 120, 0] 0 [] [95, 95, 95, 57, 0] 5 =
      some (-22, []) ∧
    (hd44780_dev_puts ack_bus 0 [] invalid_command).2 = string_writes (cstr invalid_command) ∧
    (string_writes (cstr invalid_command)).length = 60 := by
  decide

/-- C10, as stated, fails.  The text "a___" has no NUL and does not begin with
the marker, yet the request "a___" + NUL is not written to the display: the
handler finds the marker inside the text, takes the byte at index 3 ('_') as
the selector, returns `-EINVAL` and writes nothing. -/
theorem literal_text_counterexample :
    marker.isPrefixOf [97, 95, 95, 95] = false ∧
    (∀ c ∈ [97, 95, 95, 95], c ≠ 0) ∧
    lcd2004_write_file ack_bus 4294967295 [0, 0, 0] 0 [] [97, 95, 95, 95, 0] 5 =
      some (-22, []) ∧
    (hd44780_dev_puts ack_bus 0 [] [97, 95, 95, 95, 0]).2 ≠ [] := by
  decide

/-- C10, amended.  For every request of length `n`, `1 ≤ n ≤ 16`, whose text
(the first `n - 1` bytes, none of them NUL) does not contain the marker "___"
anywhere, the handler is one `hd44780_dev_puts` of the whole text and returns
`n`: no selector is parsed, no clear or set-address command is sent.  On a
transport where every write succeeds the writes are the data bytes of the
characters of the text, in order. -/
theorem literal_text_forwarded (bus : Bus) (ulong_max : Nat) (cmd : List Nat) (puts_ret : Int)
    (log text : List Nat) (t : Nat)
    (hlen : text.length < 16) (hnz : ∀ c ∈ text, c ≠ 0) (hno : ¬ marker <:+: text) :
    lcd2004_write_file bus ulong_max cmd puts_ret log (text ++ [t]) (text.length + 1) =
      some (((text.length + 1 : Nat) : Int),
        (hd44780_dev_puts bus puts_ret log (text ++ [0])).2) ∧
    (bus_ok bus →
      (hd44780_dev_puts bus puts_ret log (text ++ [0])).2 = putc_each bus log text ∧
      putc_each bus log text = log ++ string_writes text) :=
  ⟨write_file_literal bus ulong_max cmd puts_ret log text t hlen hnz hno,
    fun hok => ⟨puts_all_ok bus hok puts_ret log text [] hnz, putc_each_ok bus hok log text⟩⟩

theorem literal_text_forwarded_witness :
    lcd2004_write_file ack_bus 4294967295 [0, 0, 0] 0 [] ([104, 101, 108, 108, 111] ++ [0])
        (([104, 101, 108, 108, 111] : List Nat).length + 1) =
      some ((((([104, 101, 108, 108, 111] : List Nat).length + 1 : Nat)) : Int),
        (hd44780_dev_puts ack_bus 0 [] ([104, 101, 108, 108, 111] ++ [0])).2) ∧
    (bus_ok ack_bus →
      (hd44780_dev_puts ack_bus 0 [] ([104, 101, 108, 108, 111] ++ [0])).2 =
        putc_each ack_bus [] [104, 101, 108, 108, 111] ∧
      putc_each ack_bus [] [104, 101, 108, 108, 111] =
        [] ++ string_writes [104, 101, 108, 108, 111]) :=
  literal_text_forwarded ack_bus 4294967295 [0, 0, 0] 0 [] [104, 101, 108, 108, 111] 0
    (by decide) (by decide) (by decide)

/-! ### The write handler, general form -/

theorem store0_store0 (cmd : List Nat) (a b : Nat) :
    store0 (store0 cmd a) b = b :: cmd.drop 1 := by
  simp [store0]

/-- A request in range that is copied in: the handler with its two guards
discharged and the selector string written out. -/
theorem write_file_unfold (bus : Bus) (ulong_max : Nat) (cmd : List Nat) (puts_ret : Int)
    (log userbuf : List Nat) (count : Nat)
    (h1 : 1 ≤ count) (h16 : count ≤ 16) (hcopy : count ≤ userbuf.length) :
    lcd2004_write_file bus ulong_max cmd puts_ret log userbuf count =
      if (strstr (cstr (request_buffer userbuf count)) marker).isSome then
        match kstrtoul ulong_max (byte_at (request_buffer userbuf count) 3 :: cmd.drop 1) 0 with
        | Except.error _ => some (-EINVAL, log)
        | Except.ok val =>
          if val = 0 then some ((count : Int), hd44780_dev_clear bus log)
          else if val > 0 ∧ val ≤ 4 then
            match hd44780_dev_gotoxy bus log 0 ((val - 1) % 256) with
            | none => none
            | some log1 => some ((count : Int), log1)
          else some ((count : Int), (hd44780_dev_puts bus puts_ret log invalid_command).2)
      else some ((count : Int), (hd44780_dev_puts bus puts_ret log (request_buffer userbuf count)).2) := by
  have hcount : ¬ (count = 0 ∨ 16 < count) := by omega
  have hlen : ¬ userbuf.length < count := by omega
  unfold lcd2004_write_file
  rw [if_neg hcount, if_neg hlen]
  simp only [store0_store0, request_buffer]

theorem gotoxy_in_table (bus : Bus) (log : List Nat) (col row : Nat) (hrow : row < 4) :
    hd44780_dev_gotoxy bus log col row =
      some (hd44780_write_byte bus log
        ((HD44780_CMD_DDRAM_ADDR + line_addr.getD row 0 + col) % 256) false true).2 := by
  interval_cases row <;> rfl

/-- The five outcomes of the handler on a request in range that is copied in. -/
theorem write_file_outcome (bus : Bus) (ulong_max : Nat) (cmd : List Nat) (puts_ret : Int)
    (log userbuf : List Nat) (count : Nat)
    (h1 : 1 ≤ count) (h16 : count ≤ 16) (hcopy : count ≤ userbuf.length) :
    lcd2004_write_file bus ulong_max cmd puts_ret log userbuf count = some (-EINVAL, log) ∨
    lcd2004_write_file bus ulong_max cmd puts_ret log userbuf count =
      some ((count : Int), hd44780_dev_clear bus log) ∨
    (∃ row, row < 4 ∧ lcd2004_write_file bus ulong_max cmd puts_ret log userbuf count =
      some ((count : Int), (hd44780_write_byte bus log
        ((HD44780_CMD_DDRAM_ADDR + line_addr.getD row 0 + 0) % 256) false true).2)) ∨
    lcd2004_write_file bus ulong_max cmd puts_ret log userbuf count =
      some ((count : Int), (hd44780_dev_puts bus puts_ret log invalid_command).2) ∨
    lcd2004_write_file bus ulong_max cmd puts_ret log userbuf count =
      some ((count : Int), (hd44780_dev_puts bus puts_ret log (request_buffer userbuf count)).2) := by
  rw [write_file_unfold bus ulong_max cmd puts_ret log userbuf count h1 h16 hcopy]
  by_cases hm : (strstr (cstr (request_buffer userbuf count)) marker).isSome = true
  · rw [if_pos hm]
    cases kstrtoul ulong_max (byte_at (request_buffer userbuf count) 3 :: cmd.drop 1) 0 with
    | error e => exact Or.inl rfl
    | ok val =>
      by_cases h0 : val = 0
      · right; left
        simp only [h0, if_true]
      · by_cases h4 : val > 0 ∧ val ≤ 4
        · right; right; left
          have hrow : (val - 1) % 256 < 4 := by omega
          refine ⟨(val - 1) % 256, hrow, ?_⟩
          simp only [h0, if_false, h4, and_self, if_true]
          rw [gotoxy_in_table bus log 0 _ hrow]
        · right; right; right; left
          simp only [h0, if_false, h4]
  · rw [if_neg hm]
    right; right; right; right
    rfl

theorem request_buffer_text (text : List Nat) (t : Nat) :
    request_buffer (text ++ [t]) (text.length + 1) = text ++ [0] :=
  request_buf text t

theorem marker_found_at_start (rest : List Nat) :
    (strstr (cstr (marker ++ rest)) marker).isSome = true := by
  simp [marker, cstr, List.takeWhile, strstr, List.isPrefixOf]

/-- A first character that is neither a decimal digit nor a plus sign makes
`kstrtoul` with base 0 fail with `-EINVAL`, whatever follows it. -/
theorem kstrtoul_not_number (ulong_max c : Nat) (m : List Nat)
    (hdigit : ¬ (48 ≤ c ∧ c ≤ 57)) (hplus : c ≠ 43) :
    kstrtoul ulong_max (c :: m) 0 = Except.error (-EINVAL) := by
  have h48 : c ≠ 48 := by omega
  have hfix : _parse_integer_fixup_radix (c :: m) 0 = (c :: m, 10) := by
    simp [_parse_integer_fixup_radix, byte_at, h48]
  have hparse : _parse_integer 10 0 0 false (c :: m) = (0, 0, false) := by
    simp only [_parse_integer]
    rw [if_neg hdigit]
    split
    · rw [if_pos (by omega)]
    · rfl
  have hk : kstrtoull (c :: m) 0 = Except.error (-EINVAL) := by
    have hb : ¬ byte_at (c :: m) 0 = 43 := by simpa [byte_at] using hplus
    simp only [kstrtoull, if_neg hb, _kstrtoull, hfix, hparse]
    simp
  simp only [kstrtoul, hk]

/-- C11. A request whose text begins with the marker "___" (followed by any
bytes `rest`, then the terminator; length at most 16): whenever `kstrtoul`
fails on the selector string the handler builds (the byte after the marker,
which is the terminator for the bare marker, followed by the bytes left in
`cmd`), the handler returns `-EINVAL` and the log is unchanged: no bus write
is issued.  This is the case, whatever bytes are left in `cmd`, as soon as
the byte after the marker is neither a decimal digit nor a plus sign, as in
"___x" and in the bare marker "___". -/
theorem malformed_selector_rejected (bus : Bus) (ulong_max : Nat) (cmd : List Nat)
    (puts_ret : Int) (log rest : List Nat) (t : Nat) (hlen : rest.length + 4 ≤ 16) :
    (∀ e, kstrtoul ulong_max (byte_at (rest ++ [0]) 0 :: cmd.drop 1) 0 = Except.error e →
      lcd2004_write_file bus ulong_max cmd puts_ret log (marker ++ rest ++ [t])
        (rest.length + 4) = some (-EINVAL, log)) ∧
    (¬ (48 ≤ byte_at (rest ++ [0]) 0 ∧ byte_at (rest ++ [0]) 0 ≤ 57) →
      byte_at (rest ++ [0]) 0 ≠ 43 →
      lcd2004_write_file bus ulong_max cmd puts_ret log (marker ++ rest ++ [t])
        (rest.length + 4) = some (-EINVAL, log)) := by
  have hcount : rest.length + 4 = (marker ++ rest).length + 1 := by simp [marker]
  have hbuf : request_buffer (marker ++ rest ++ [t]) (rest.length + 4) = marker ++ rest ++ [0] := by
    rw [hcount]; exact request_buffer_text (marker ++ rest) t
  have hsel : byte_at (marker ++ rest ++ [0]) 3 = byte_at (rest ++ [0]) 0 := by
    simp [marker, byte_at]
  have hfound : (strstr (cstr (marker ++ rest ++ [0])) marker).isSome = true := by
    rw [List.append_assoc]; exact marker_found_at_start (rest ++ [0])
  have hunfold := write_file_unfold bus ulong_max cmd puts_ret log (marker ++ rest ++ [t])
    (rest.length + 4) (by omega) hlen (by simp [marker])
  rw [hbuf, if_pos hfound, hsel] at hunfold
  have hgen : ∀ e, kstrtoul ulong_max (byte_at (rest ++ [0]) 0 :: cmd.drop 1) 0 =
      Except.error e →
      lcd2004_write_file bus ulong_max cmd puts_ret log (marker ++ rest ++ [t])
        (rest.length + 4) = some (-EINVAL, log) := by
    intro e he
    rw [hunfold, he]
  exact ⟨hgen, fun hd hp => hgen _ (kstrtoul_not_number ulong_max _ _ hd hp)⟩

theorem malformed_selector_rejected_witness :
    lcd2004_write_file ack_bus 4294967295 [0, 49, 0] 0 [] (marker ++ [120] ++ [10])
        (([120] : List Nat).length + 4) = some (-EINVAL, []) ∧
    lcd2004_write_file ack_bus 4294967295 [0, 49, 0] 0 [] (marker ++ [] ++ [10])
        (([] : List Nat).length + 4) = some (-EINVAL, []) :=
  ⟨(malformed_selector_rejected ack_bus 4294967295 [0, 49, 0] 0 [] [120] 10 (by decide)).2
      (by decide) (by decide),
    (malformed_selector_rejected ack_bus 4294967295 [0, 49, 0] 0 [] [] 10 (by decide)).1
      (-EINVAL) (by decide)⟩

/-- A request whose length is in range has a defined outcome: the table is
indexed in bounds on every path of the handler. -/
theorem write_file_defined (bus : Bus) (ulong_max : Nat) (cmd : List Nat) (puts_ret : Int)
    (log userbuf : List Nat) (count : Nat) (h1 : 1 ≤ count) (h16 : count ≤ 16) :
    (lcd2004_write_file bus ulong_max cmd puts_ret log userbuf count).isSome = true := by
  by_cases hcopy : count ≤ userbuf.length
  · rcases write_file_outcome bus ulong_max cmd puts_ret log userbuf count h1 h16 hcopy with
      h | h | ⟨row, _, h⟩ | h | h <;> rw [h] <;> rfl
  · have hcount : ¬ (count = 0 ∨ 16 < count) := by omega
    unfold lcd2004_write_file
    rw [if_neg hcount, if_pos (by omega)]
    rfl

theorem gotoxy_past_table (bus : Bus) (log : List Nat) (col row : Nat) (hrow : 4 ≤ row) :
    hd44780_dev_gotoxy bus log col row = none := by
  have h : line_addr.get? row = none := by
    rw [List.get?_eq_none]
    exact hrow
  simp only [hd44780_dev_gotoxy, h]

/-- C12, as stated, fails.  `hd44780_dev_gotoxy(0, 4)` is not rejected: the
source has no check, it reads `line_addr[4]`, one past the four entries of the
table (the outcome `none`, not a return with the log unchanged), and goes on
to `hd44780_write_byte` with whatever byte `a` it has read, which is four bus
writes for every `a` when the writes succeed. -/
theorem gotoxy_row_not_validated :
    line_addr.length = 4 ∧
    line_addr.get? 4 = none ∧
    hd44780_dev_gotoxy ack_bus [] 0 4 = none ∧
    hd44780_dev_gotoxy ack_bus [] 0 4 ≠ some [] ∧
    (∀ a, (hd44780_write_byte ack_bus []
      ((HD44780_CMD_DDRAM_ADDR + a + 0) % 256) false true).2.length = 4) := by
  refine ⟨rfl, rfl, rfl, by decide, fun a => ?_⟩
  rw [write_byte_ok ack_bus (fun _ _ => le_refl _), byte_writes_eq]
  rfl

/-- C12, amended.  `hd44780_dev_gotoxy` does not validate `row`: for a row in
0..3 it sends the set-address command built from `line_addr[row]`, and a row
of 4 or more indexes the table past its end.  The bound is kept by the
caller: `lcd2004_write_file` calls `hd44780_dev_gotoxy` with `val - 1` for a
selector `1 ≤ val ≤ 4` only, so every request of length 1..16 has a defined
outcome, the table being indexed in bounds. -/
theorem gotoxy_row_bounded_by_caller (bus : Bus) (ulong_max : Nat) (cmd : List Nat)
    (puts_ret : Int) (log userbuf : List Nat) (count col row : Nat)
    (h1 : 1 ≤ count) (h16 : count ≤ 16) :
    (row < 4 → hd44780_dev_gotoxy bus log col row =
      some (hd44780_write_byte bus log
        ((HD44780_CMD_DDRAM_ADDR + line_addr.getD row 0 + col) % 256) false true).2) ∧
    (4 ≤ row → hd44780_dev_gotoxy bus log col row = none) ∧
    (∀ val, val > 0 ∧ val ≤ 4 → (val - 1) % 256 < line_addr.length) ∧
    (lcd2004_write_file bus ulong_max cmd puts_ret log userbuf count).isSome = true := by
  refine ⟨gotoxy_in_table bus log col row, gotoxy_past_table bus log col row, ?_,
    write_file_defined bus ulong_max cmd puts_ret log userbuf count h1 h16⟩
  intro val hval
  have : line_addr.length = 4 := rfl
  omega

theorem gotoxy_row_bounded_by_caller_witness :
    (2 < 4 → hd44780_dev_gotoxy ack_bus [] 0 2 =
      some (hd44780_write_byte ack_bus []
        ((HD44780_CMD_DDRAM_ADDR + line_addr.getD 2 0 + 0) % 256) false true).2) ∧
    (4 ≤ 2 → hd44780_dev_gotoxy ack_bus [] 0 2 = none) ∧
    (∀ val, val > 0 ∧ val ≤ 4 → (val - 1) % 256 < line_addr.length) ∧
    (lcd2004_write_file ack_bus 4294967295 [0, 0, 0] 0 [] [95, 95, 95, 51, 0] 5).isSome = true :=
  gotoxy_row_bounded_by_caller ack_bus 4294967295 [0, 0, 0] 0 [] [95, 95, 95, 51, 0] 5 0 2
    (by decide) (by decide)

/-- The return value of the handler does not depend on the transport. -/
theorem write_file_ret_bus_free (bus bus2 : Bus) (ulong_max : Nat) (cmd : List Nat)
    (puts_ret : Int) (log userbuf : List Nat) (count : Nat)
    (h1 : 1 ≤ count) (h16 : count ≤ 16) (hcopy : count ≤ userbuf.length) :
    (lcd2004_write_file bus ulong_max cmd puts_ret log userbuf count).map Prod.fst =
      (lcd2004_write_file bus2 ulong_max cmd puts_ret log userbuf count).map Prod.fst := by
  rw [write_file_unfold bus ulong_max cmd puts_ret log userbuf count h1 h16 hcopy,
    write_file_unfold bus2 ulong_max cmd puts_ret log userbuf count h1 h16 hcopy]
  by_cases hm : (strstr (cstr (request_buffer userbuf count)) marker).isSome = true
  · rw [if_pos hm, if_pos hm]
    cases kstrtoul ulong_max (byte_at (request_buffer userbuf count) 3 :: cmd.drop 1) 0 with
    | error e => rfl
    | ok val =>
      by_cases h0 : val = 0
      · simp only [h0, if_true, Option.map_some']
      · by_cases h4 : val > 0 ∧ val ≤ 4
        · have hrow : (val - 1) % 256 < 4 := by omega
          simp only [h0, if_false, h4, and_self, if_true]
          rw [gotoxy_in_table bus log 0 _ hrow, gotoxy_in_table bus2 log 0 _ hrow]
          rfl
        · simp only [h0, if_false, h4, Option.map_some']
  · rw [if_neg hm, if_neg hm]
    rfl

/-- When the handler has written to the bus, its return value is `count`. -/
theorem write_file_wrote_ret (bus : Bus) (ulong_max : Nat) (cmd : List Nat)
    (puts_ret : Int) (log userbuf : List Nat) (count : Nat)
    (h1 : 1 ≤ count) (h16 : count ≤ 16) (hcopy : count ≤ userbuf.length)
    (r : Int) (log1 : List Nat)
    (hres : lcd2004_write_file bus ulong_max cmd puts_ret log userbuf count = some (r, log1))
    (hwrote : log1 ≠ log) : r = (count : Int) := by
  rcases write_file_outcome bus ulong_max cmd puts_ret log userbuf count h1 h16 hcopy with
    h | h | ⟨row, _, h⟩ | h | h <;> rw [h] at hres <;>
    simp only [Option.some.injEq, Prod.mk.injEq] at hres
  · exact absurd hres.2.symm hwrote
  · exact hres.1.symm
  · exact hres.1.symm
  · exact hres.1.symm
  · exact hres.1.symm

/-- C13, as stated, fails.  The request "hi" + NUL on a transport that
refuses the very first write: the write fails, `hd44780_dev_puts` returns
the negative code, and the handler still returns 3, the length of the
request.  The request "___0" + NUL on the same transport: the clear command
fails on its first write and the handler returns 5. -/
theorem bus_failure_not_returned :
    lcd2004_write_file (nth_write_fails 0) 4294967295 [0, 0, 0] 0 [] [104, 105, 0] 3 =
      some (3, [0x6D]) ∧
    nth_write_fails 0 [] 0x6D < 0 ∧
    hd44780_dev_puts (nth_write_fails 0) 0 [] [104, 105, 0] = (-5, [0x6D]) ∧
    lcd2004_write_file (nth_write_fails 0) 4294967295 [0, 0, 0] 0 [] [95, 95, 95, 48, 0] 5 =
      some (5, [0x0C]) ∧
    nth_write_fails 0 [] 0x0C < 0 := by
  decide

/-- C13, amended.  Bus failures do not reach the caller of the handler.  For
every request of length 1..16 that is copied in, the return value is the same
on every transport, and whenever the handler has issued a bus write (the log
has changed) the return value is the length of the request, whether or not
any of those writes has failed. -/
theorem bus_failure_logged_only (bus bus2 : Bus) (ulong_max : Nat) (cmd : List Nat)
    (puts_ret : Int) (log userbuf : List Nat) (count : Nat)
    (h1 : 1 ≤ count) (h16 : count ≤ 16) (hcopy : count ≤ userbuf.length) :
    (lcd2004_write_file bus ulong_max cmd puts_ret log userbuf count).map Prod.fst =
      (lcd2004_write_file bus2 ulong_max cmd puts_ret log userbuf count).map Prod.fst ∧
    (∀ r log1,
      lcd2004_write_file bus ulong_max cmd puts_ret log userbuf count = some (r, log1) →
      log1 ≠ log → r = (count : Int)) :=
  ⟨write_file_ret_bus_free bus bus2 ulong_max cmd puts_ret log userbuf count h1 h16 hcopy,
    fun r log1 hres hwrote =>
      write_file_wrote_ret bus ulong_max cmd puts_ret log userbuf count h1 h16 hcopy r log1
        hres hwrote⟩

theorem bus_failure_logged_only_witness :
    (lcd2004_write_file (nth_write_fails 0) 4294967295 [0, 0, 0] 0 [] [104, 105, 0] 3).map
        Prod.fst =
      (lcd2004_write_file ack_bus 4294967295 [0, 0, 0] 0 [] [104, 105, 0] 3).map Prod.fst ∧
    (∀ r log1,
      lcd2004_write_file (nth_write_fails 0) 4294967295 [0, 0, 0] 0 [] [104, 105, 0] 3 =
        some (r, log1) →
      log1 ≠ [] → r = ((3 : Nat) : Int)) :=
  bus_failure_logged_only (nth_write_fails 0) ack_bus 4294967295 [0, 0, 0] 0 [] [104, 105, 0] 3
    (by decide) (by decide) (by decide)

/-- C14, the code at a failing input.  `hd44780_dev_puts` on the empty string
writes nothing and returns the value its local `ret` holds on entry, which the
source never sets: with `-5` left there the call returns `-5`.  So it is for
every transport, log and stale value. -/
theorem puts_empty_returns_stale_ret :
    hd44780_dev_puts ack_bus (-5) [] [0] = (-5, []) ∧
    (∀ (bus : Bus) (ret : Int) (log tl : List Nat),
      hd44780_dev_puts bus ret log (0 :: tl) = (ret, log)) := by
  refine ⟨by decide, fun bus ret log tl => ?_⟩
  simp [hd44780_dev_puts]

/-- C15. For every request of length `count`, `1 ≤ count ≤ 16`, that is
copied in, the handler returns (its outcome is defined), its return value is
either `count` or `-EINVAL`, and whenever it is not negative it is `count`. -/
theorem bytes_consumed_is_count (bus : Bus) (ulong_max : Nat) (cmd : List Nat)
    (puts_ret : Int) (log userbuf : List Nat) (count : Nat)
    (h1 : 1 ≤ count) (h16 : count ≤ 16) (hcopy : count ≤ userbuf.length) :
    (lcd2004_write_file bus ulong_max cmd puts_ret log userbuf count).isSome = true ∧
    (∀ r log1,
      lcd2004_write_file bus ulong_max cmd puts_ret log userbuf count = some (r, log1) →
      (r = (count : Int) ∨ r = -EINVAL) ∧ (0 ≤ r → r = (count : Int))) := by
  refine ⟨write_file_defined bus ulong_max cmd puts_ret log userbuf count h1 h16, ?_⟩
  intro r log1 hres
  have hcases : r = (count : Int) ∨ r = -EINVAL := by
    rcases write_file_outcome bus ulong_max cmd puts_ret log userbuf count h1 h16 hcopy with
      h | h | ⟨row, _, h⟩ | h | h <;> rw [h] at hres <;>
      simp only [Option.some.injEq, Prod.mk.injEq] at hres
    · exact Or.inr hres.1.symm
    · exact Or.inl hres.1.symm
    · exact Or.inl hres.1.symm
    · exact Or.inl hres.1.symm
    · exact Or.inl hres.1.symm
  refine ⟨hcases, fun hr => ?_⟩
  rcases hcases with h | h
  · exact h
  · rw [h] at hr
    exact absurd hr (by decide)

theorem bytes_consumed_is_count_witness :
    (lcd2004_write_file ack_bus 4294967295 [0, 0, 0] 0 [] [95, 95, 95, 52, 10] 5).isSome = true ∧
    (∀ r log1,
      lcd2004_write_file ack_bus 4294967295 [0, 0, 0] 0 [] [95, 95, 95, 52, 10] 5 =
        some (r, log1) →
      (r = ((5 : Nat) : Int) ∨ r = -EINVAL) ∧ (0 ≤ r → r = ((5 : Nat) : Int))) :=
  bytes_consumed_is_count ack_bus 4294967295 [0, 0, 0] 0 [] [95, 95, 95, 52, 10] 5
    (by decide) (by decide) (by decide)

/-! ### Initialisation on a failing transport -/

theorem write_nibble_step (bus : Bus) (log : List Nat) (b : Nat) (rs bl : Bool) :
    (hd44780_write_nibble bus log b rs bl).2 = (fail_stop bus 0 log (nibble_writes b rs bl)).2 := by
  rw [write_nibble_fail_stop bus 0, nibble_writes_eq]

theorem write_byte_step (bus : Bus) (log : List Nat) (b : Nat) (rs bl : Bool) :
    (hd44780_write_byte bus log b rs bl).2 = (fail_stop bus 0 log (byte_writes b rs bl)).2 := by
  rw [write_byte_fail_stop bus 0, byte_writes_eq]
  rfl

theorem init_eq_run_steps (bus : Bus) (log : List Nat) :
    hd44780_dev_init bus log = run_steps bus log init_steps := by
  simp only [hd44780_dev_init, init_loop, hd44780_dev_control, hd44780_dev_clear,
    write_nibble_step, write_byte_step]
  rfl

theorem fail_stop_length (bus : Bus) (ret : Int) (log ws : List Nat) (hws : ws ≠ []) :
    log.length + 1 ≤ (fail_stop bus ret log ws).2.length ∧
    (fail_stop bus ret log ws).2.length ≤ log.length + ws.length := by
  induction ws generalizing ret log with
  | nil => exact absurd rfl hws
  | cons w ws ih =>
    simp only [fail_stop]
    by_cases hw : bus log w < 0
    · simp [hw]
    · rw [if_neg hw]
      cases ws with
      | nil => simp [fail_stop]
      | cons w2 ws2 =>
        have := ih (bus log w) (log ++ [w]) (by simp)
        simp only [List.length_append, List.length_cons, List.length_nil] at this ⊢
        omega

theorem run_steps_length (bus : Bus) (log : List Nat) (steps : List (List Nat))
    (hne : ∀ ws ∈ steps, ws ≠ []) :
    log.length + steps.length ≤ (run_steps bus log steps).length ∧
    (run_steps bus log steps).length ≤ log.length + (steps.map List.length).sum := by
  induction steps generalizing log with
  | nil => simp [run_steps]
  | cons ws steps ih =>
    have h1 := fail_stop_length bus 0 log ws (hne ws (List.mem_cons_self ws steps))
    have h2 := ih (fail_stop bus 0 log ws).2 (fun x hx => hne x (List.mem_cons_of_mem ws hx))
    simp only [run_steps, List.foldl_cons, List.length_cons, List.map_cons, List.sum_cons]
      at h2 ⊢
    omega

/-- C16, as stated, fails.  On a transport that refuses the very first write
of the initialisation (the strobe-high write `0x3C` of the first nibble),
`hd44780_dev_init` goes on: only the strobe-low write of that nibble is
left out, and 26 more writes follow the failed one. -/
theorem init_goes_on_after_failure :
    nth_write_fails 0 [] 0x3C < 0 ∧
    hd44780_dev_init (nth_write_fails 0) [] =
      [0x3C, 0x3C, 0x38, 0x3C, 0x38, 0x2C, 0x28, 0x2C, 0x28, 0x8C, 0x88,
        0x0C, 0x08, 0x8C, 0x88, 0x0C, 0x08, 0x1C, 0x18, 0x04, 0x00, 0x64, 0x60,
        0x0C, 0x08, 0xFC, 0xF8] ∧
    (hd44780_dev_init (nth_write_fails 0) []).length = 27 := by
  decide

/-- C16, amended.  A bus failure does not abort the initialisation:
`hd44780_dev_init` drops every return code.  On every transport it runs its
nine steps in order (nibble `0x3` three times, nibble `0x2`, bytes `0x28`,
`0x08`, `0x01`, `0x06`, `0x0F`), each step fail-stop on its own: a refused
write leaves out the rest of the nibble or byte it belongs to, and every
later step is still issued.  Between 9 and 28 writes go out in all. -/
theorem init_steps_fail_stop (bus : Bus) (log : List Nat) :
    hd44780_dev_init bus log = run_steps bus log init_steps ∧
    log.length + 9 ≤ (hd44780_dev_init bus log).length ∧
    (hd44780_dev_init bus log).length ≤ log.length + 28 := by
  have hne : ∀ ws ∈ init_steps, ws ≠ [] := by decide
  have hlen := run_steps_length bus log init_steps hne
  have h9 : init_steps.length = 9 := rfl
  have h28 : (init_steps.map List.length).sum = 28 := by decide
  rw [h9, h28] at hlen
  rw [init_eq_run_steps]
  exact ⟨rfl, hlen⟩

/-! ### Selector extraction -/

theorem cstr_append_zero_any (s tl : List Nat) : cstr (s ++ 0 :: tl) = cstr s := by
  induction s with
  | nil => simp [cstr]
  | cons c s ih =>
    simp only [cstr, List.cons_append, List.takeWhile_cons] at ih ⊢
    split
    · rw [ih]
    · rfl

theorem byte_at_append (s tl : List Nat) (i : Nat) (hi : i < s.length) :
    byte_at (s ++ tl) i = byte_at s i := by
  simp [byte_at, List.getD_eq_getElem?_getD, List.getElem?_append_left hi]

/-- The handler on a request of at least five bytes whose text contains the
marker: the outcome is a function of the length, of the byte at index 3 and
of the bytes left in `cmd` after position 0. -/
theorem write_file_marker (bus : Bus) (ulong_max : Nat) (cmd : List Nat) (puts_ret : Int)
    (log text : List Nat) (t : Nat)
    (h4 : 4 ≤ text.length) (h15 : text.length ≤ 15) (hm : marker <:+: cstr text) :
    lcd2004_write_file bus ulong_max cmd puts_ret log (text ++ [t]) (text.length + 1) =
      match kstrtoul ulong_max (byte_at text 3 :: cmd.drop 1) 0 with
      | Except.error _ => some (-EINVAL, log)
      | Except.ok val =>
        if val = 0 then some (((text.length + 1 : Nat) : Int), hd44780_dev_clear bus log)
        else if val > 0 ∧ val ≤ 4 then
          match hd44780_dev_gotoxy bus log 0 ((val - 1) % 256) with
          | none => none
          | some log1 => some (((text.length + 1 : Nat) : Int), log1)
        else some (((text.length + 1 : Nat) : Int),
          (hd44780_dev_puts bus puts_ret log invalid_command).2) := by
  have hfound : (strstr (cstr (text ++ [0])) marker).isSome = true := by
    rw [cstr_append_zero_any text []]
    cases hs : strstr (cstr text) marker with
    | none => exact absurd hm ((strstr_none_iff marker _).mp hs)
    | some x => rfl
  rw [write_file_unfold bus ulong_max cmd puts_ret log (text ++ [t]) (text.length + 1)
    (by omega) (by omega) (by simp), request_buffer_text, if_pos hfound,
    byte_at_append text [0] 3 (by omega)]

/-- C17. The selector string handed to `kstrtoul` is the memory at `cmd`
with position 0 set to `buf[2]` and then to `buf[3]`: the byte `buf[3]`
followed by the bytes `cmd` held after position 0 on entry; no other byte of
the request reaches it.  Hence two requests of the same length (5..16) whose
texts both contain the marker and agree on the byte at index 3, run with the
same bytes left in `cmd` after position 0, return the same value and issue
the same bus writes. -/
theorem selector_single_character (bus : Bus) (ulong_max : Nat) (cmd cmd2 : List Nat)
    (puts_ret : Int) (log text text2 : List Nat) (t t2 : Nat)
    (h4 : 4 ≤ text.length) (h15 : text.length ≤ 15) (hlen : text2.length = text.length)
    (hm : marker <:+: cstr text) (hm2 : marker <:+: cstr text2)
    (h3 : byte_at text 3 = byte_at text2 3) (hcmd : cmd.drop 1 = cmd2.drop 1) :
    store0 (store0 cmd (byte_at text 2)) (byte_at text 3) = byte_at text 3 :: cmd.drop 1 ∧
    lcd2004_write_file bus ulong_max cmd puts_ret log (text ++ [t]) (text.length + 1) =
      lcd2004_write_file bus ulong_max cmd2 puts_ret log (text2 ++ [t2]) (text2.length + 1) := by
  refine ⟨store0_store0 cmd _ _, ?_⟩
  rw [write_file_marker bus ulong_max cmd puts_ret log text t h4 h15 hm,
    write_file_marker bus ulong_max cmd2 puts_ret log text2 t2 (by omega) (by omega) hm2,
    hlen, h3, hcmd]

theorem selector_single_character_witness :
    store0 (store0 [7, 0, 0] (byte_at [95, 95, 95, 49, 50] 2)) (byte_at [95, 95, 95, 49, 50] 3) =
      byte_at [95, 95, 95, 49, 50] 3 :: ([7, 0, 0] : List Nat).drop 1 ∧
    lcd2004_write_file ack_bus 4294967295 [7, 0, 0] 0 [] ([95, 95, 95, 49, 50] ++ [0])
        (([95, 95, 95, 49, 50] : List Nat).length + 1) =
      lcd2004_write_file ack_bus 4294967295 [9, 0, 0] 0 [] ([95, 95, 95, 49, 120] ++ [10])
        (([95, 95, 95, 49, 120] : List Nat).length + 1) :=
  selector_single_character ack_bus 4294967295 [7, 0, 0] [9, 0, 0] 0 [] [95, 95, 95, 49, 50]
    [95, 95, 95, 49, 120] 0 10 (by decide) (by decide) (by decide) (by decide) (by decide)
    (by decide) (by decide)

/-! ### The encoder reads four bits -/

theorem expander_byte_congr (b b2 : Nat) (rs bl : Bool) (hb : b &&& 0x0F = b2 &&& 0x0F) :
    expander_byte b rs bl = expander_byte b2 rs bl := by
  unfold expander_byte
  rw [hb]

theorem expander_byte_grouped (m : Nat) (rs bl : Bool) (hm : m < 16) :
    expander_byte m rs bl =
      (m <<< 4) ||| ((if bl then 0x08 else 0) ||| (if rs then 0x01 else 0)) := by
  have h : m &&& 0x0F = m := by
    rw [and_15_eq_mod]
    exact Nat.mod_eq_of_lt hm
  unfold expander_byte
  rw [h, Nat.lor_assoc]

/-- C18. The encoder ignores the bits of its argument above bit 3: two
arguments with the same four low bits give the same writes and the same
result on every transport.  So `hd44780_write_byte`, which hands the encoder
`b >> 4` and then the whole byte `b >> 0`, behaves on every transport as the
encoder on `b >> 4` followed, unless that has failed, by the encoder on
`b & 0x0F`; for a byte `b < 256` on a transport where every write succeeds
the four writes are `(hi<<4)|f|4`, `(hi<<4)|f`, `(lo<<4)|f|4`, `(lo<<4)|f`
with `hi = b >> 4`, `lo = b & 0x0F`, `f = (bl ? 8 : 0) | (rs ? 1 : 0)`. -/
theorem encoder_reads_low_nibble (bus : Bus) (log : List Nat) (b b2 : Nat) (rs bl : Bool)
    (hb : b &&& 0x0F = b2 &&& 0x0F) :
    hd44780_write_nibble bus log b rs bl = hd44780_write_nibble bus log b2 rs bl ∧
    hd44780_write_byte bus log b rs bl =
      (if (hd44780_write_nibble bus log (b >>> 4) rs bl).1 < 0 then
        hd44780_write_nibble bus log (b >>> 4) rs bl
      else
        hd44780_write_nibble bus (hd44780_write_nibble bus log (b >>> 4) rs bl).2
          (b &&& 0x0F) rs bl) ∧
    (bus_ok bus → b < 256 →
      (hd44780_write_byte bus log b rs bl).2 =
        log ++
          [((b >>> 4) <<< 4) ||| ((if bl then 8 else 0) ||| (if rs then 1 else 0)) ||| 4,
           ((b >>> 4) <<< 4) ||| ((if bl then 8 else 0) ||| (if rs then 1 else 0)),
           ((b &&& 0x0F) <<< 4) ||| ((if bl then 8 else 0) ||| (if rs then 1 else 0)) ||| 4,
           ((b &&& 0x0F) <<< 4) ||| ((if bl then 8 else 0) ||| (if rs then 1 else 0))]) := by
  refine ⟨?_, write_byte_eq bus log b rs bl, ?_⟩
  · rw [write_nibble_eq, write_nibble_eq, expander_byte_congr b b2 rs bl hb]
  · intro hok hbyte
    have hhi : b >>> 4 < 16 := by
      rw [Nat.shiftRight_eq_div_pow]
      omega
    have hlo : b &&& 0x0F < 16 := by
      rw [and_15_eq_mod]
      exact Nat.mod_lt _ (by decide)
    rw [write_byte_ok bus hok, byte_writes_eq, ← expander_byte_and_15 b rs bl,
      expander_byte_grouped _ rs bl hhi, expander_byte_grouped _ rs bl hlo]

theorem encoder_reads_low_nibble_witness :
    hd44780_write_nibble ack_bus [] 0xA5 true true = hd44780_write_nibble ack_bus [] 0x05 true true ∧
    hd44780_write_byte ack_bus [] 0xA5 true true =
      (if (hd44780_write_nibble ack_bus [] (0xA5 >>> 4) true true).1 < 0 then
        hd44780_write_nibble ack_bus [] (0xA5 >>> 4) true true
      else
        hd44780_write_nibble ack_bus (hd44780_write_nibble ack_bus [] (0xA5 >>> 4) true true).2
          (0xA5 &&& 0x0F) true true) ∧
    (bus_ok ack_bus → 0xA5 < 256 →
      (hd44780_write_byte ack_bus [] 0xA5 true true).2 =
        [] ++
          [((0xA5 >>> 4) <<< 4) ||| ((if true then 8 else 0) ||| (if true then 1 else 0)) ||| 4,
           ((0xA5 >>> 4) <<< 4) ||| ((if true then 8 else 0) ||| (if true then 1 else 0)),
           ((0xA5 &&& 0x0F) <<< 4) ||| ((if true then 8 else 0) ||| (if true then 1 else 0)) ||| 4,
           ((0xA5 &&& 0x0F) <<< 4) ||| ((if true then 8 else 0) ||| (if true then 1 else 0))]) :=
  encoder_reads_low_nibble ack_bus [] 0xA5 0x05 true true (by decide)

/-! ### Strobe framing -/

theorem framed_append (ws1 ws2 : List Nat) (h1 : framed ws1 = true) (h2 : framed ws2 = true) :
    framed (ws1 ++ ws2) = true := by
  induction ws1 using framed.induct with
  | case1 => simpa using h2
  | case2 x => simp [framed] at h1
  | case3 a v rest ih =>
    simp only [framed, Bool.and_eq_true] at h1
    simp only [List.cons_append, framed, Bool.and_eq_true]
    exact ⟨h1.1, ih h1.2⟩

theorem framed_bit1 (ws : List Nat) (h : framed ws = true) :
    ∀ x, x ∈ ws → x.testBit 1 = false := by
  induction ws using framed.induct with
  | case1 => simp
  | case2 x => simp [framed] at h
  | case3 a v rest ih =>
    simp only [framed, Bool.and_eq_true, Bool.not_eq_true'] at h
    intro x hx
    simp only [List.mem_cons] at hx
    rcases hx with hx | hx | hx
    · rw [hx]; exact h.1.2
    · rw [hx]; exact h.1.1.2
    · exact ih h.2 x hx

theorem framed_last_low (ws : List Nat) (h : framed ws = true) :
    ∀ x, ws.getLast? = some x → x.testBit 2 = false := by
  induction ws using framed.induct with
  | case1 => simp
  | case2 x => simp [framed] at h
  | case3 a v rest ih =>
    simp only [framed, Bool.and_eq_true, Bool.not_eq_true'] at h
    intro x hx
    cases rest with
    | nil =>
      simp only [List.getLast?_cons_cons, List.getLast?_singleton, Option.some.injEq] at hx
      rw [← hx]; exact h.1.1.1.2
    | cons y rest2 =>
      simp only [List.getLast?_cons_cons] at hx
      exact ih h.2 x hx

theorem framed_even (ws : List Nat) (h : framed ws = true) : ws.length % 2 = 0 := by
  induction ws using framed.induct with
  | case1 => rfl
  | case2 x => simp [framed] at h
  | case3 a v rest ih =>
    simp only [framed, Bool.and_eq_true] at h
    have := ih h.2
    simp only [List.length_cons]
    omega

theorem writes_framed_append (log ws : List Nat) (h : framed ws = true) :
    writes_framed log (log ++ ws) = true := by
  simp [writes_framed, h]

theorem framed_pair_small (rs bl : Bool) :
    ∀ m, m < 16 → framed [expander_byte m rs bl ||| 0x04, expander_byte m rs bl] = true := by
  cases rs <;> cases bl <;> decide

theorem framed_nibble_writes (b : Nat) (rs bl : Bool) :
    framed (nibble_writes b rs bl) = true := by
  rw [nibble_writes_eq, expander_byte_mod]
  exact framed_pair_small rs bl (b % 16) (Nat.mod_lt _ (by decide))

theorem byte_writes_nibbles (b : Nat) (rs bl : Bool) :
    byte_writes b rs bl = nibble_writes (b >>> 4) rs bl ++ nibble_writes b rs bl := by
  rw [byte_writes_eq, nibble_writes_eq, nibble_writes_eq]
  rfl

theorem framed_byte_writes (b : Nat) (rs bl : Bool) : framed (byte_writes b rs bl) = true := by
  rw [byte_writes_nibbles]
  exact framed_append _ _ (framed_nibble_writes _ rs bl) (framed_nibble_writes _ rs bl)

theorem framed_string_writes (s : List Nat) : framed (string_writes s) = true := by
  induction s with
  | nil => rfl
  | cons c s ih =>
    have hc : string_writes (c :: s) = byte_writes (c % 256) true true ++ string_writes s := rfl
    rw [hc]
    exact framed_append _ _ (framed_byte_writes _ true true) ih

/-- On a transport where every write succeeds `hd44780_dev_puts` writes the
data bytes of the characters found before the first zero byte. -/
theorem puts_ok_any (bus : Bus) (hok : bus_ok bus) (ret : Int) (log mem : List Nat) :
    (hd44780_dev_puts bus ret log mem).2 = log ++ string_writes (cstr mem) := by
  induction mem generalizing ret log with
  | nil => simp [hd44780_dev_puts, cstr, string_writes]
  | cons c s ih =>
    simp only [hd44780_dev_puts]
    by_cases hc : c = 0
    · simp [hc, cstr, string_writes]
    · have hb : (c != 0) = true := by simpa using hc
      rw [if_neg hc, if_neg (not_lt.mpr (putc_nonneg bus hok log c)), ih]
      simp only [hd44780_dev_putc, write_byte_ok bus hok, cstr, List.takeWhile_cons, hb,
        if_true, List.append_assoc]
      rfl

theorem run_steps_ok (bus : Bus) (hok : bus_ok bus) (log : List Nat) (steps : List (List Nat)) :
    run_steps bus log steps = log ++ steps.flatten := by
  induction steps generalizing log with
  | nil => simp [run_steps]
  | cons ws steps ih =>
    have h := ih (fail_stop bus 0 log ws).2
    simp only [run_steps, List.foldl_cons] at h ⊢
    rw [h, fail_stop_ok bus hok]
    simp

theorem writes_framed_refl (log : List Nat) : writes_framed log log = true := by
  have h := writes_framed_append log [] rfl
  simpa using h

theorem write_byte_framed (bus : Bus) (hok : bus_ok bus) (log : List Nat) (b : Nat)
    (rs bl : Bool) : writes_framed log (hd44780_write_byte bus log b rs bl).2 = true := by
  rw [write_byte_ok bus hok]
  exact writes_framed_append log _ (framed_byte_writes b rs bl)

theorem puts_framed (bus : Bus) (hok : bus_ok bus) (ret : Int) (log mem : List Nat) :
    writes_framed log (hd44780_dev_puts bus ret log mem).2 = true := by
  rw [puts_ok_any bus hok]
  exact writes_framed_append log _ (framed_string_writes _)

theorem write_file_framed (bus : Bus) (hok : bus_ok bus) (ulong_max : Nat) (cmd : List Nat)
    (puts_ret : Int) (log userbuf : List Nat) (count : Nat) (h1 : 1 ≤ count) (h16 : count ≤ 16) :
    ∃ r log1, lcd2004_write_file bus ulong_max cmd puts_ret log userbuf count = some (r, log1) ∧
      writes_framed log log1 = true := by
  by_cases hcopy : count ≤ userbuf.length
  · rcases write_file_outcome bus ulong_max cmd puts_ret log userbuf count h1 h16 hcopy with
      h | h | ⟨row, _, h⟩ | h | h
    · exact ⟨_, _, h, writes_framed_refl log⟩
    · exact ⟨_, _, h, write_byte_framed bus hok log _ _ _⟩
    · exact ⟨_, _, h, write_byte_framed bus hok log _ _ _⟩
    · exact ⟨_, _, h, puts_framed bus hok _ log _⟩
    · exact ⟨_, _, h, puts_framed bus hok _ log _⟩
  · have hcount : ¬ (count = 0 ∨ 16 < count) := by omega
    refine ⟨-EFAULT, log, ?_, writes_framed_refl log⟩
    unfold lcd2004_write_file
    rw [if_neg hcount, if_pos (by omega)]

/-- C19. On a transport where every write succeeds, the bytes written by
each operation (`hd44780_write_nibble`, `hd44780_write_byte`,
`hd44780_dev_control`, `hd44780_dev_clear`, `hd44780_dev_gotoxy` on a row of
the table, `hd44780_dev_init`, `hd44780_dev_putc`, `hd44780_dev_puts`, and
`lcd2004_write_file` on a request of length 1..16) are appended to the log
and are strobe framed: consecutive pairs `(v | 0x04, v)` with bit 2 clear in
`v` and bit 1 clear in both bytes.  A framed sequence has even length, bit 1
clear in every byte, and bit 2 clear in its last byte: the strobe is left
low. -/
theorem strobe_framing (bus : Bus) (hok : bus_ok bus) (log : List Nat) :
    (∀ b rs bl, writes_framed log (hd44780_write_nibble bus log b rs bl).2 = true) ∧
    (∀ b rs bl, writes_framed log (hd44780_write_byte bus log b rs bl).2 = true) ∧
    (∀ o c k, writes_framed log (hd44780_dev_control bus log o c k) = true) ∧
    writes_framed log (hd44780_dev_clear bus log) = true ∧
    (∀ col row, row < 4 → ∃ log1, hd44780_dev_gotoxy bus log col row = some log1 ∧
      writes_framed log log1 = true) ∧
    writes_framed log (hd44780_dev_init bus log) = true ∧
    (∀ c, writes_framed log (hd44780_dev_putc bus log c).2 = true) ∧
    (∀ ret mem, writes_framed log (hd44780_dev_puts bus ret log mem).2 = true) ∧
    (∀ ulong_max cmd puts_ret userbuf count, 1 ≤ count → count ≤ 16 →
      ∃ r log1,
        lcd2004_write_file bus ulong_max cmd puts_ret log userbuf count = some (r, log1) ∧
        writes_framed log log1 = true) ∧
    (∀ ws, framed ws = true →
      ws.length % 2 = 0 ∧ (∀ x, x ∈ ws → x.testBit 1 = false) ∧
      (∀ x, ws.getLast? = some x → x.testBit 2 = false)) := by
  refine ⟨?_, ?_, ?_, ?_, ?_, ?_, ?_, ?_, ?_, ?_⟩
  · intro b rs bl
    rw [write_nibble_ok bus hok]
    exact writes_framed_append log _ (framed_nibble_writes b rs bl)
  · intro b rs bl
    exact write_byte_framed bus hok log b rs bl
  · intro o c k
    exact write_byte_framed bus hok log _ _ _
  · exact write_byte_framed bus hok log _ _ _
  · intro col row hrow
    exact ⟨_, gotoxy_in_table bus log col row hrow, write_byte_framed bus hok log _ _ _⟩
  · rw [init_eq_run_steps, run_steps_ok bus hok]
    exact writes_framed_append log _ (by decide)
  · intro c
    exact write_byte_framed bus hok log _ _ _
  · intro ret mem
    exact puts_framed bus hok ret log mem
  · intro ulong_max cmd puts_ret userbuf count h1 h16
    exact write_file_framed bus hok ulong_max cmd puts_ret log userbuf count h1 h16
  · intro ws h
    exact ⟨framed_even ws h, framed_bit1 ws h, framed_last_low ws h⟩

theorem strobe_framing_witness :
    writes_framed [] (hd44780_dev_init ack_bus []) = true ∧
    (∃ r log1,
      lcd2004_write_file ack_bus 4294967295 [0, 0, 0] 0 [] [104, 105, 0] 3 = some (r, log1) ∧
      writes_framed [] log1 = true) :=
  ⟨(strobe_framing ack_bus (fun _ _ => le_refl _) []).2.2.2.2.2.1,
    (strobe_framing ack_bus (fun _ _ => le_refl _) []).2.2.2.2.2.2.2.2.1 4294967295 [0, 0, 0] 0
      [104, 105, 0] 3 (by decide) (by decide)⟩

/-! ### The address map -/

theorem line_addr_row_cases (r : Nat) (hr : r < 4) :
    (r = 0 ∧ line_addr.getD r 0 = 0) ∨ (r = 1 ∧ line_addr.getD r 0 = 64) ∨
    (r = 2 ∧ line_addr.getD r 0 = 20) ∨ (r = 3 ∧ line_addr.getD r 0 = 84) := by
  interval_cases r <;> decide

theorem expander_byte_data_small (rs bl : Bool) :
    ∀ m, m < 16 → expander_byte m rs bl >>> 4 = m := by
  cases rs <;> cases bl <;> decide

theorem expander_byte_data (b : Nat) (rs bl : Bool) : expander_byte b rs bl >>> 4 = b % 16 := by
  rw [expander_byte_mod]
  exact expander_byte_data_small rs bl (b % 16) (Nat.mod_lt _ (by decide))

/-- The command byte can be read back from the writes of `hd44780_write_byte`. -/
theorem command_of_byte_writes (b : Nat) (rs bl : Bool) (hb : b < 256) :
    command_of_writes (byte_writes b rs bl) = b := by
  rw [byte_writes_eq]
  simp only [command_of_writes, List.getD_cons_succ, List.getD_cons_zero, expander_byte_data]
  rw [Nat.shiftRight_eq_div_pow]
  omega

theorem address_sum_injective (r r2 c c2 : Nat) (hr : r < 4) (hr2 : r2 < 4)
    (hc : c < 20) (hc2 : c2 < 20)
    (h : line_addr.getD r 0 + c = line_addr.getD r2 0 + c2) : r = r2 ∧ c = c2 := by
  rcases line_addr_row_cases r hr with ⟨h1, h2⟩ | ⟨h1, h2⟩ | ⟨h1, h2⟩ | ⟨h1, h2⟩ <;>
    rcases line_addr_row_cases r2 hr2 with ⟨h3, h4⟩ | ⟨h3, h4⟩ | ⟨h3, h4⟩ | ⟨h3, h4⟩ <;>
    rw [h2, h4] at h <;> omega

theorem address_set (a : Nat) :
    (∃ r c, r < 4 ∧ c < 20 ∧ a = line_addr.getD r 0 + c) ↔
      (a ≤ 0x27 ∨ (0x40 ≤ a ∧ a ≤ 0x67)) := by
  constructor
  · rintro ⟨r, c, hr, hc, ha⟩
    rcases line_addr_row_cases r hr with ⟨_, h2⟩ | ⟨_, h2⟩ | ⟨_, h2⟩ | ⟨_, h2⟩ <;>
      rw [h2] at ha <;> omega
  · intro h
    by_cases h0 : a < 20
    · exact ⟨0, a, by decide, h0, by simp [line_addr, HD44780_LINE_1_ADDR]⟩
    · by_cases h1 : a ≤ 0x27
      · refine ⟨2, a - 20, by decide, by omega, ?_⟩
        have : line_addr.getD 2 0 = 20 := by decide
        omega
      · by_cases h2 : a < 0x54
        · refine ⟨1, a - 64, by decide, by omega, ?_⟩
          have : line_addr.getD 1 0 = 64 := by decide
          omega
        · refine ⟨3, a - 84, by decide, by omega, ?_⟩
          have : line_addr.getD 3 0 = 84 := by decide
          omega

/-- C20. On the 20x4 display (rows `r`, `r2` in 0..3, columns `c`, `c2` in
0..19) the map from positions to set-address commands of
`hd44780_dev_gotoxy` is injective: equal sums `0x80 + line_addr[r] + c` mean
equal positions, and equal bus writes of `hd44780_dev_gotoxy` mean equal
positions.  Every command lies in `[0x80, 0xE7]`: it is not changed by the
truncation to 8 bits, has bit 7 set, and equals `0x80 | (line_addr[r] + c)`;
it is the command `hd44780_dev_gotoxy` hands to `hd44780_write_byte`.  The
addresses `line_addr[r] + c` are exactly `0x00..0x27` and `0x40..0x67`. -/
theorem address_map_injective (r r2 c c2 : Nat) (hr : r < 4) (hr2 : r2 < 4)
    (hc : c < 20) (hc2 : c2 < 20) :
    (HD44780_CMD_DDRAM_ADDR + line_addr.getD r 0 + c =
        HD44780_CMD_DDRAM_ADDR + line_addr.getD r2 0 + c2 → r = r2 ∧ c = c2) ∧
    (hd44780_dev_gotoxy ack_bus [] c r = hd44780_dev_gotoxy ack_bus [] c2 r2 →
      r = r2 ∧ c = c2) ∧
    0x80 ≤ HD44780_CMD_DDRAM_ADDR + line_addr.getD r 0 + c ∧
    HD44780_CMD_DDRAM_ADDR + line_addr.getD r 0 + c ≤ 0xE7 ∧
    (HD44780_CMD_DDRAM_ADDR + line_addr.getD r 0 + c) % 256 =
      HD44780_CMD_DDRAM_ADDR + line_addr.getD r 0 + c ∧
    (HD44780_CMD_DDRAM_ADDR + line_addr.getD r 0 + c).testBit 7 = true ∧
    HD44780_CMD_DDRAM_ADDR + line_addr.getD r 0 + c = 0x80 ||| (line_addr.getD r 0 + c) ∧
    (∀ (bus : Bus) (log : List Nat), hd44780_dev_gotoxy bus log c r =
      some (hd44780_write_byte bus log
        (HD44780_CMD_DDRAM_ADDR + line_addr.getD r 0 + c) false true).2) ∧
    (∀ a, (∃ r c, r < 4 ∧ c < 20 ∧ a = line_addr.getD r 0 + c) ↔
      (a ≤ 0x27 ∨ (0x40 ≤ a ∧ a ≤ 0x67))) := by
  have hcmd : HD44780_CMD_DDRAM_ADDR = 0x80 := rfl
  have hbits : ∀ r, r < 4 → ∀ c, c < 20 →
      (HD44780_CMD_DDRAM_ADDR + line_addr.getD r 0 + c).testBit 7 = true ∧
      HD44780_CMD_DDRAM_ADDR + line_addr.getD r 0 + c = 0x80 ||| (line_addr.getD r 0 + c) := by
    decide
  have hrange : ∀ r c, r < 4 → c < 20 →
      0x80 ≤ HD44780_CMD_DDRAM_ADDR + line_addr.getD r 0 + c ∧
      HD44780_CMD_DDRAM_ADDR + line_addr.getD r 0 + c ≤ 0xE7 := by
    intro r c hr hc
    rcases line_addr_row_cases r hr with ⟨_, h2⟩ | ⟨_, h2⟩ | ⟨_, h2⟩ | ⟨_, h2⟩ <;>
      rw [h2, hcmd] <;> omega
  have hmod : ∀ r c, r < 4 → c < 20 →
      (HD44780_CMD_DDRAM_ADDR + line_addr.getD r 0 + c) % 256 =
        HD44780_CMD_DDRAM_ADDR + line_addr.getD r 0 + c := by
    intro r c hr hc
    have := hrange r c hr hc
    exact Nat.mod_eq_of_lt (by omega)
  have hinj : HD44780_CMD_DDRAM_ADDR + line_addr.getD r 0 + c =
      HD44780_CMD_DDRAM_ADDR + line_addr.getD r2 0 + c2 → r = r2 ∧ c = c2 := by
    intro h
    exact address_sum_injective r r2 c c2 hr hr2 hc hc2 (by omega)
  have hgoto : ∀ (bus : Bus) (log : List Nat) (r c : Nat), r < 4 → c < 20 →
      hd44780_dev_gotoxy bus log c r =
        some (hd44780_write_byte bus log
          (HD44780_CMD_DDRAM_ADDR + line_addr.getD r 0 + c) false true).2 := by
    intro bus log r c hr hc
    rw [gotoxy_in_table bus log c r hr, hmod r c hr hc]
  refine ⟨hinj, ?_, (hrange r c hr hc).1, (hrange r c hr hc).2, hmod r c hr hc,
    (hbits r hr c hc).1, (hbits r hr c hc).2, fun bus log => hgoto bus log r c hr hc,
    address_set⟩
  intro h
  rw [hgoto ack_bus [] r c hr hc, hgoto ack_bus [] r2 c2 hr2 hc2,
    write_byte_ok ack_bus (fun _ _ => le_refl _), write_byte_ok ack_bus (fun _ _ => le_refl _)] at h
  simp only [Option.some.injEq, List.nil_append] at h
  have hb1 := command_of_byte_writes _ false true
    (by have := hrange r c hr hc; omega :
      HD44780_CMD_DDRAM_ADDR + line_addr.getD r 0 + c < 256)
  have hb2 := command_of_byte_writes _ false true
    (by have := hrange r2 c2 hr2 hc2; omega :
      HD44780_CMD_DDRAM_ADDR + line_addr.getD r2 0 + c2 < 256)
  rw [h] at hb1
  exact hinj (hb1.symm.trans hb2)

theorem address_map_injective_witness :
    (HD44780_CMD_DDRAM_ADDR + line_addr.getD 2 0 + 19 =
        HD44780_CMD_DDRAM_ADDR + line_addr.getD 1 0 + 0 → 2 = 1 ∧ 19 = 0) ∧
    (hd44780_dev_gotoxy ack_bus [] 19 2 = hd44780_dev_gotoxy ack_bus [] 0 1 →
      2 = 1 ∧ 19 = 0) ∧
    0x80 ≤ HD44780_CMD_DDRAM_ADDR + line_addr.getD 2 0 + 19 ∧
    HD44780_CMD_DDRAM_ADDR + line_addr.getD 2 0 + 19 ≤ 0xE7 ∧
    (HD44780_CMD_DDRAM_ADDR + line_addr.getD 2 0 + 19) % 256 =
      HD44780_CMD_DDRAM_ADDR + line_addr.getD 2 0 + 19 ∧
    (HD44780_CMD_DDRAM_ADDR + line_addr.getD 2 0 + 19).testBit 7 = true ∧
    HD44780_CMD_DDRAM_ADDR + line_addr.getD 2 0 + 19 = 0x80 ||| (line_addr.getD 2 0 + 19) ∧
    (∀ (bus : Bus) (log : List Nat), hd44780_dev_gotoxy bus log 19 2 =
      some (hd44780_write_byte bus log
        (HD44780_CMD_DDRAM_ADDR + line_addr.getD 2 0 + 19) false true).2) ∧
    (∀ a, (∃ r c, r < 4 ∧ c < 20 ∧ a = line_addr.getD r 0 + c) ↔
      (a ≤ 0x27 ∨ (0x40 ≤ a ∧ a ≤ 0x67))) :=
  address_map_injective 2 1 19 0 (by decide) (by decide) (by decide) (by decide)

end LCD2004
